import Mathlib

/-!
Verification of the Sudoku puzzle engine: grid codec, conflict detector,
puzzle carver, fallback generator, and the undo/redo history model.
The definitions below are shallow embeddings of the TypeScript source
(src/utils/sudoku.ts, the generation script, and the session component).
Machine integers are modelled as Nat with explicit reductions mod 2^32
where the source relies on unsigned 32-bit wraparound.
-/

def BOARD_SIZE : Nat := 81

/-- Per-character step of parseGrid (src/utils/sudoku.ts, lines 7-15).
The characters ".", "-", "0" denote an empty cell.  Otherwise the source
computes Number(char) and accepts it only when it is an integer between 1
and 9; for a single character that holds exactly for the ASCII digits 1-9
(whitespace characters convert to 0 and every other character to NaN, and
both are rejected by the integer-range check). -/
def parseCellChar (c : Char) : Except String (Option Nat) :=
  if c = '.' ∨ c = '-' ∨ c = '0' then Except.ok none
  else if '1' ≤ c ∧ c ≤ '9' then Except.ok (some (c.toNat - 48))
  else Except.error "Invalid grid character"

/-- parseGrid (src/utils/sudoku.ts, lines 3-17): the length check runs
first, then each character is converted; the first bad character aborts
with an error, matching the thrown exception in the source. -/
def parseGrid (grid : List Char) : Except String (List (Option Nat)) :=
  if grid.length ≠ BOARD_SIZE then Except.error "Expected 81 chars"
  else grid.mapM parseCellChar

/-- Indices of row r (computeConflicts, lines 42-44 of sudoku.ts). -/
def rowIndices (row : Nat) : List Nat :=
  (List.range 9).map (fun col => row * 9 + col)

/-- Indices of column c (computeConflicts, lines 46-48 of sudoku.ts). -/
def colIndices (col : Nat) : List Nat :=
  (List.range 9).map (fun row => row * 9 + col)

/-- Indices of the 3x3 box at (boxRow, boxCol) (lines 50-59 of sudoku.ts). -/
def boxIndices (boxRow boxCol : Nat) : List Nat :=
  ((List.range 3).map (fun row =>
    (List.range 3).map (fun col => (boxRow * 3 + row) * 9 + (boxCol * 3 + col)))).flatten

/-- The 27 constraint groups in the order the source visits them:
9 rows, 9 columns, 9 boxes. -/
def allGroups : List (List Nat) :=
  (List.range 9).map rowIndices ++ (List.range 9).map colIndices ++
    ((List.range 3).map (fun boxRow =>
      (List.range 3).map (fun boxCol => boxIndices boxRow boxCol))).flatten

/-- markGroup (lines 22-40 of sudoku.ts).  The source buckets the indices
of a group by their value in a Map and marks every index of each bucket
of size at least two.  The bucket of value v is exactly the sublist of
indices of the group holding v, so an index is marked precisely when it
holds some value v and the group contains more than one index holding v,
which is the filter below. -/
def markGroup (values : List (Option Nat)) (g : List Nat) : List Nat :=
  g.filter (fun i => match values.getD i none with
    | none => false
    | some v => decide (1 < (g.filter (fun j => values.getD j none == some v)).length))

/-- computeConflicts (lines 19-63 of sudoku.ts): union over the 27 groups
of the marked indices, with set semantics for the returned JS Set. -/
def computeConflicts (values : List (Option Nat)) : Finset Nat :=
  ((allGroups.map (markGroup values)).flatten).toFinset


/-- Row predicate of the specification: two flat indices lie in the same
row when their quotients by 9 agree. -/
def sameRow (i j : Nat) : Prop := i / 9 = j / 9

/-- Column predicate of the specification. -/
def sameCol (i j : Nat) : Prop := i % 9 = j % 9

/-- Box predicate of the specification: the box of an index is the pair
(row / 3, col / 3), that is (i / 27, i % 9 / 3). -/
def sameBox (i j : Nat) : Prop := i / 27 = j / 27 ∧ i % 9 / 3 = j % 9 / 3

/-- The set of conflicting cells as the specification describes it: a cell
holding a digit such that some other cell of the same row, column or box
holds the same digit. -/
def conflictSpec (values : List (Option Nat)) (i : Nat) : Prop :=
  i < 81 ∧ ∃ v, values.getD i none = some v ∧
    ∃ j, j < 81 ∧ j ≠ i ∧ (sameRow i j ∨ sameCol i j ∨ sameBox i j) ∧
      values.getD j none = some v

theorem allGroups_nodup : ∀ g ∈ allGroups, g.Nodup := by decide

theorem allGroups_lt81 : ∀ g ∈ allGroups, ∀ x ∈ g, x < 81 := by decide

theorem mem_rowIndices {r j : Nat} : j ∈ rowIndices r ↔ ∃ c < 9, j = r * 9 + c := by
  constructor
  · intro h
    simp only [rowIndices, List.mem_map, List.mem_range] at h
    obtain ⟨c, hc, rfl⟩ := h
    exact ⟨c, hc, rfl⟩
  · rintro ⟨c, hc, rfl⟩
    simp only [rowIndices, List.mem_map, List.mem_range]
    exact ⟨c, hc, rfl⟩

theorem mem_colIndices {c j : Nat} : j ∈ colIndices c ↔ ∃ r < 9, j = r * 9 + c := by
  constructor
  · intro h
    simp only [colIndices, List.mem_map, List.mem_range] at h
    obtain ⟨r, hr, rfl⟩ := h
    exact ⟨r, hr, rfl⟩
  · rintro ⟨r, hr, rfl⟩
    simp only [colIndices, List.mem_map, List.mem_range]
    exact ⟨r, hr, rfl⟩

theorem mem_boxIndices {br bc j : Nat} :
    j ∈ boxIndices br bc ↔ ∃ r < 3, ∃ c < 3, j = (br * 3 + r) * 9 + (bc * 3 + c) := by
  constructor
  · intro h
    simp only [boxIndices, List.mem_flatten, List.mem_map, List.mem_range] at h
    obtain ⟨l, ⟨r, hr, rfl⟩, hjl⟩ := h
    simp only [List.mem_map, List.mem_range] at hjl
    obtain ⟨c, hc, rfl⟩ := hjl
    exact ⟨r, hr, c, hc, rfl⟩
  · rintro ⟨r, hr, c, hc, rfl⟩
    simp only [boxIndices, List.mem_flatten, List.mem_map, List.mem_range]
    refine ⟨List.map (fun col => (br * 3 + r) * 9 + (bc * 3 + col)) (List.range 3),
      ⟨r, hr, rfl⟩, ?_⟩
    simp only [List.mem_map, List.mem_range]
    exact ⟨c, hc, rfl⟩

theorem mem_allGroups {g : List Nat} :
    g ∈ allGroups ↔ ((∃ r < 9, g = rowIndices r) ∨ (∃ c < 9, g = colIndices c) ∨
      (∃ br < 3, ∃ bc < 3, g = boxIndices br bc)) := by
  constructor
  · intro h
    simp only [allGroups, List.mem_append, List.mem_map, List.mem_flatten,
      List.mem_range] at h
    rcases h with (⟨r, hr, rfl⟩ | ⟨c, hc, rfl⟩) | ⟨l, ⟨br, hbr, rfl⟩, hgl⟩
    · exact Or.inl ⟨r, hr, rfl⟩
    · exact Or.inr (Or.inl ⟨c, hc, rfl⟩)
    · simp only [List.mem_map, List.mem_range] at hgl
      obtain ⟨bc, hbc, rfl⟩ := hgl
      exact Or.inr (Or.inr ⟨br, hbr, bc, hbc, rfl⟩)
  · intro h
    simp only [allGroups, List.mem_append, List.mem_map, List.mem_flatten,
      List.mem_range]
    rcases h with ⟨r, hr, rfl⟩ | ⟨c, hc, rfl⟩ | ⟨br, hbr, bc, hbc, rfl⟩
    · exact Or.inl (Or.inl ⟨r, hr, rfl⟩)
    · exact Or.inl (Or.inr ⟨c, hc, rfl⟩)
    · refine Or.inr ⟨(List.range 3).map (fun bc => boxIndices br bc), ⟨br, hbr, rfl⟩, ?_⟩
      simp only [List.mem_map, List.mem_range]
      exact ⟨bc, hbc, rfl⟩

theorem groupShared_iff {i j : Nat} (hi : i < 81) (hj : j < 81) :
    (∃ g ∈ allGroups, i ∈ g ∧ j ∈ g) ↔
      (sameRow i j ∨ sameCol i j ∨ sameBox i j) := by
  unfold sameRow sameCol sameBox
  constructor
  · rintro ⟨g, hg, hig, hjg⟩
    rcases mem_allGroups.1 hg with ⟨r, hr, rfl⟩ | ⟨c, hc, rfl⟩ | ⟨br, hbr, bc, hbc, rfl⟩
    · obtain ⟨ci, hci, rfl⟩ := mem_rowIndices.1 hig
      obtain ⟨cj, hcj, rfl⟩ := mem_rowIndices.1 hjg
      left; omega
    · obtain ⟨ri, hri, rfl⟩ := mem_colIndices.1 hig
      obtain ⟨rj, hrj, rfl⟩ := mem_colIndices.1 hjg
      right; left; omega
    · obtain ⟨ri, hri, ci, hci, rfl⟩ := mem_boxIndices.1 hig
      obtain ⟨rj, hrj, cj, hcj, rfl⟩ := mem_boxIndices.1 hjg
      right; right; omega
  · rintro (h | h | h)
    · refine ⟨rowIndices (i / 9), mem_allGroups.2 (Or.inl ⟨i / 9, by omega, rfl⟩), ?_, ?_⟩
      · exact mem_rowIndices.2 ⟨i % 9, by omega, by omega⟩
      · exact mem_rowIndices.2 ⟨j % 9, by omega, by omega⟩
    · refine ⟨colIndices (i % 9), mem_allGroups.2 (Or.inr (Or.inl ⟨i % 9, by omega, rfl⟩)),
        ?_, ?_⟩
      · exact mem_colIndices.2 ⟨i / 9, by omega, by omega⟩
      · exact mem_colIndices.2 ⟨j / 9, by omega, by omega⟩
    · refine ⟨boxIndices (i / 27) (i % 9 / 3),
        mem_allGroups.2 (Or.inr (Or.inr ⟨i / 27, by omega, i % 9 / 3, by omega, rfl⟩)), ?_, ?_⟩
      · exact mem_boxIndices.2 ⟨i / 9 % 3, by omega, i % 9 % 3, by omega, by omega⟩
      · exact mem_boxIndices.2 ⟨j / 9 % 3, by omega, j % 9 % 3, by omega, by omega⟩

/-- In a duplicate-free list, a filtered sublist has more than one element
exactly when some element other than a chosen member also satisfies the
predicate. -/
theorem one_lt_filter_length_iff {l : List Nat} (hnd : l.Nodup) {p : Nat → Bool}
    {i : Nat} (hil : i ∈ l) (hpi : p i = true) :
    1 < (l.filter p).length ↔ ∃ j ∈ l, j ≠ i ∧ p j = true := by
  constructor
  · intro hlen
    by_contra hno
    push_neg at hno
    have hsub : (l.filter p).toFinset ⊆ {i} := by
      intro x hx
      rw [List.mem_toFinset, List.mem_filter] at hx
      rcases eq_or_ne x i with h | h
      · simp [h]
      · exact absurd hx.2 (by simpa using hno x hx.1 h)
    have hcard : (l.filter p).toFinset.card ≤ 1 := by
      simpa using Finset.card_le_card hsub
    rw [List.toFinset_card_of_nodup (hnd.filter p)] at hcard
    omega
  · rintro ⟨j, hjl, hne, hpj⟩
    have hi : i ∈ l.filter p := List.mem_filter.2 ⟨hil, hpi⟩
    have hj : j ∈ l.filter p := List.mem_filter.2 ⟨hjl, hpj⟩
    have hsub : ({i, j} : Finset Nat) ⊆ (l.filter p).toFinset := by
      intro x hx
      rcases Finset.mem_insert.1 hx with rfl | hx
      · exact List.mem_toFinset.2 hi
      · rw [Finset.mem_singleton] at hx
        subst hx
        exact List.mem_toFinset.2 hj
    have h2 : ({i, j} : Finset Nat).card = 2 := by
      rw [Finset.card_insert_of_not_mem (by simpa using hne.symm), Finset.card_singleton]
    have := Finset.card_le_card hsub
    have := List.toFinset_card_le (l := l.filter p)
    omega

theorem mem_markGroup_iff {values : List (Option Nat)} {g : List Nat} {i : Nat} :
    i ∈ markGroup values g ↔ i ∈ g ∧ ∃ v, values.getD i none = some v ∧
      1 < (g.filter (fun j => values.getD j none == some v)).length := by
  unfold markGroup
  rw [List.mem_filter]
  constructor
  · rintro ⟨hig, hp⟩
    refine ⟨hig, ?_⟩
    cases hv : values.getD i none with
    | none => rw [hv] at hp; simp at hp
    | some v =>
      rw [hv] at hp
      simp only [decide_eq_true_eq] at hp
      exact ⟨v, rfl, hp⟩
  · rintro ⟨hig, v, hv, hlen⟩
    refine ⟨hig, ?_⟩
    rw [hv]
    simpa using hlen

/-- C1: computeConflicts marks exactly the cells that hold a digit some
other cell of the same row, column or box also holds.  This covers all
duplicate occurrences in a group (including three or more cells sharing a
value), never an empty cell, and never a cell whose value is unique in its
row, column and box. -/
theorem computeConflicts_correct (values : List (Option Nat))
    (_hlen : values.length = 81) (i : Nat) :
    i ∈ computeConflicts values ↔ conflictSpec values i := by
  unfold computeConflicts conflictSpec
  rw [List.mem_toFinset, List.mem_flatten]
  constructor
  · rintro ⟨l, hl, hil⟩
    rw [List.mem_map] at hl
    obtain ⟨g, hg, rfl⟩ := hl
    obtain ⟨hig, v, hv, hcount⟩ := mem_markGroup_iff.1 hil
    have hi81 : i < 81 := allGroups_lt81 g hg i hig
    have hpi : (fun j => values.getD j none == some v) i = true := by
      simpa only [beq_iff_eq] using hv
    obtain ⟨j, hjg, hne, hpj⟩ :=
      (one_lt_filter_length_iff (allGroups_nodup g hg) hig hpi).1 hcount
    have hj81 : j < 81 := allGroups_lt81 g hg j hjg
    have hshare : sameRow i j ∨ sameCol i j ∨ sameBox i j :=
      (groupShared_iff hi81 hj81).1 ⟨g, hg, hig, hjg⟩
    simp only [beq_iff_eq] at hpj
    exact ⟨hi81, v, hv, j, hj81, hne, hshare, hpj⟩
  · rintro ⟨hi81, v, hv, j, hj81, hne, hshare, hvj⟩
    obtain ⟨g, hg, hig, hjg⟩ := (groupShared_iff hi81 hj81).2 hshare
    refine ⟨markGroup values g, List.mem_map.2 ⟨g, hg, rfl⟩, ?_⟩
    refine mem_markGroup_iff.2 ⟨hig, v, hv, ?_⟩
    have hpi : (fun k => values.getD k none == some v) i = true := by
      simpa only [beq_iff_eq] using hv
    refine (one_lt_filter_length_iff (allGroups_nodup g hg) hig hpi).2 ?_
    exact ⟨j, hjg, hne, by simpa only [beq_iff_eq] using hvj⟩

/-- The alphabet parseGrid accepts, as the specification lists it. -/
def validChar (c : Char) : Prop :=
  c = '.' ∨ c = '-' ∨ c = '0' ∨ ('1' ≤ c ∧ c ≤ '9')

/-- The cell a valid character denotes: empty for the blank markers,
otherwise the digit value. -/
def cellOfChar (c : Char) : Option Nat :=
  if c = '.' ∨ c = '-' ∨ c = '0' then none else some (c.toNat - 48)

theorem parseCellChar_ok_iff {c : Char} {o : Option Nat} :
    parseCellChar c = Except.ok o ↔ validChar c ∧ o = cellOfChar c := by
  unfold parseCellChar validChar cellOfChar
  by_cases h1 : c = '.' ∨ c = '-' ∨ c = '0'
  · have hv : c = '.' ∨ c = '-' ∨ c = '0' ∨ ('1' ≤ c ∧ c ≤ '9') :=
      h1.imp id (Or.imp id Or.inl)
    simp only [if_pos h1, Except.ok.injEq]
    constructor
    · rintro rfl
      exact ⟨hv, rfl⟩
    · rintro ⟨_, rfl⟩
      rfl
  · by_cases h2 : '1' ≤ c ∧ c ≤ '9'
    · simp only [if_neg h1, if_pos h2, Except.ok.injEq]
      constructor
      · rintro rfl
        exact ⟨Or.inr (Or.inr (Or.inr h2)), rfl⟩
      · rintro ⟨_, rfl⟩
        rfl
    · simp only [if_neg h1, if_neg h2]
      constructor
      · intro h
        exact Except.noConfusion h
      · rintro ⟨hv, _⟩
        rcases hv with h | h | h | h
        · exact absurd (Or.inl h) h1
        · exact absurd (Or.inr (Or.inl h)) h1
        · exact absurd (Or.inr (Or.inr h)) h1
        · exact absurd h h2

theorem mapM_parseCellChar_ok_iff {g : List Char} {r : List (Option Nat)} :
    g.mapM parseCellChar = Except.ok r ↔
      (∀ c ∈ g, validChar c) ∧ r = g.map cellOfChar := by
  induction g generalizing r with
  | nil =>
    rw [List.mapM_nil]
    show Except.ok [] = Except.ok r ↔ _
    simp [eq_comm]
  | cons a l ih =>
    rw [List.mapM_cons]
    cases ha : parseCellChar a with
    | error e =>
      have hnot : ¬ validChar a := fun hv => by
        have h2 := parseCellChar_ok_iff.2 ⟨hv, rfl⟩
        rw [ha] at h2
        exact Except.noConfusion h2
      constructor
      · intro h
        have h2 : (Except.error e : Except String (List (Option Nat))) = Except.ok r := h
        exact Except.noConfusion h2
      · rintro ⟨hall, rfl⟩
        exact absurd (hall a (List.mem_cons_self a l)) hnot
    | ok o =>
      obtain ⟨hva, rfl⟩ := parseCellChar_ok_iff.1 ha
      rcases hrest : l.mapM parseCellChar with e | r2
      · constructor
        · intro h
          have h2 : (Except.error e : Except String (List (Option Nat))) = Except.ok r := h
          exact Except.noConfusion h2
        · rintro ⟨hall, rfl⟩
          have h3 : l.mapM parseCellChar = Except.ok (l.map cellOfChar) :=
            ih.2 ⟨fun c hc => hall c (List.mem_cons_of_mem a hc), rfl⟩
          rw [hrest] at h3
          exact Except.noConfusion h3
      · obtain ⟨hall2, rfl⟩ := ih.1 hrest
        constructor
        · intro h
          have h2 : (Except.ok (cellOfChar a :: l.map cellOfChar) :
              Except String (List (Option Nat))) = Except.ok r := h
          cases h2
          refine ⟨?_, rfl⟩
          intro c hc
          rcases List.mem_cons.1 hc with rfl | hc
          · exact hva
          · exact hall2 c hc
        · rintro ⟨hall, rfl⟩
          show Except.ok _ = Except.ok _
          rfl

/-- parseGrid succeeds exactly on an 81-character string over the accepted
alphabet, in which case it produces the cell list character by character. -/
theorem parseGrid_ok_iff {g : List Char} {r : List (Option Nat)} :
    parseGrid g = Except.ok r ↔
      (g.length = 81 ∧ (∀ c ∈ g, validChar c) ∧ r = g.map cellOfChar) := by
  unfold parseGrid BOARD_SIZE
  by_cases hlen : g.length = 81
  · rw [if_neg (by simp [hlen])]
    rw [mapM_parseCellChar_ok_iff]
    simp [hlen]
  · rw [if_pos hlen]
    constructor
    · intro h
      exact Except.noConfusion h
    · rintro ⟨h, _⟩
      exact absurd h hlen

/-- One step of the linear-congruential generator from seeded (generation
script, lines 22-28).  The JS code computes (state * 1664525 + 1013904223)
followed by an unsigned shift >>> 0, that is reduction mod 2^32; the
intermediate product stays below 2^53 so the double arithmetic is exact. -/
def lcg (state : Nat) : Nat := (state * 1664525 + 1013904223) % 4294967296

/-- Reading indices[i] in JS: undefined (modelled as none) when i is past
the end of the array. -/
def jsGetElem (l : List (Option Nat)) (i : Nat) : Option Nat := l.getD i none

/-- Writing indices[i] = v in JS: in range it overwrites, past the end it
extends the array, filling any gap with undefined. -/
def jsSetElem (l : List (Option Nat)) (i : Nat) (v : Option Nat) : List (Option Nat) :=
  if i < l.length then l.set i v else l ++ List.replicate (i - l.length) none ++ [v]

/-- The destructuring swap [a[i], a[j]] = [a[j], a[i]] from carve: both
reads happen first, then the two writes. -/
def jsSwap (l : List (Option Nat)) (i j : Nat) : List (Option Nat) :=
  let a := jsGetElem l i
  let b := jsGetElem l j
  jsSetElem (jsSetElem l i b) j a

/-- Rounding division: the nearest integer to num / den, ties to even.
This is the correctly rounded quotient IEEE 754 requires; for odd den a
tie 2 * (num % den) = den is impossible, so the tie rule never fires
there. -/
def rndDiv (num den : Nat) : Nat :=
  let q := num / den
  let r := num % den
  if 2 * r < den then q
  else if den < 2 * r then q + 1
  else if q % 2 = 0 then q else q + 1

/-- Round half to even of n / 2^k: IEEE rounding of an exact product to 53
significant bits drops the k excess low bits with this rule. -/
def rhe (n k : Nat) : Nat := rndDiv n (2 ^ k)

/-- Floor of the base-2 logarithm (0 at 0), by fuel recursion; 128
halvings cover every number below 2^128, far above every operand
appearing in carve. -/
def floorLog2Aux : Nat → Nat → Nat
  | 0, _ => 0
  | fuel + 1, n => if n ≤ 1 then 0 else floorLog2Aux fuel (n / 2) + 1

def floorLog2 (n : Nat) : Nat := floorLog2Aux 128 n

/-- The IEEE binary64 evaluation of state / 0xffffffff (rand, generation
script line 26): the correctly rounded double is the dyadic rational
m / 2^s with 53-bit significand m = rndDiv (state * 2^s) 0xffffffff, the
scale s chosen so that 2^52 ≤ state * 2^s / 0xffffffff < 2^53.  With
t0 = 31 - floorLog2 state the value state * 2^t0 lies in [2^31, 2^32),
so s = 52 + t0 works when 0xffffffff ≤ state * 2^t0 (that is, when
state = 0xffffffff and the quotient is exactly 1) and s = 52 + t0 + 1
otherwise.  The divisor is odd, so no tie can arise and round half to
even is plain round to nearest; rounding can push m up to exactly 2^53,
which still denotes the same double value m / 2^s. -/
def flDiv (state : Nat) : Nat × Nat :=
  if state = 0 then (0, 0)
  else
    let t0 := 31 - floorLog2 state
    let t := if 4294967295 ≤ state * 2 ^ t0 then t0 else t0 + 1
    (rndDiv (state * 2 ^ (52 + t)) 4294967295, 52 + t)

/-- Math.floor(rand() * (i + 1)) evaluated in IEEE binary64 (generation
script, line 34), with f = i + 1.  The exact product of the quotient
double m / 2^s by the small integer f is m * f / 2^s; the double multiply
rounds it to 53 significant bits, dropping shift = floorLog2 (m * f) - 52
low bits half to even, and Math.floor truncates the remaining s - shift
fractional bits.  All values lie far inside the normal range, so no
overflow, underflow or subnormal rounding occurs.  Unlike the exact
integer quotient state * f / 0xffffffff, this floors one lower whenever
state * f is a nonzero multiple of 0xffffffff with state < 0xffffffff:
fl(state / 0xffffffff) then falls strictly below the exact quotient and
the rounded product stays strictly below the integer state * f /
0xffffffff (for example state = 2610666395, f = 51: the exact quotient is
31, the double computation gives 30). -/
def floatJ (state f : Nat) : Nat :=
  let m := (flDiv state).1
  let s := (flDiv state).2
  let prod := m * f
  if prod = 0 then 0
  else
    let shift := floorLog2 prod - 52
    rhe prod shift / 2 ^ (s - shift)

/-- The shuffle loop of carve (generation script, lines 33-36), indices i
from 80 down to 1; the fuel argument is the current loop index.  In each
step the next LCG state is drawn and j = Math.floor(rand() * (i + 1))
with rand() = state / 0xffffffff, both operations evaluated in IEEE
binary64 double arithmetic exactly as the source runs them, which floatJ
models bit for bit. -/
def shuffleAux : Nat → Nat → List (Option Nat) → List (Option Nat)
  | 0, _, l => l
  | i + 1, state, l =>
    let st := lcg state
    let j := floatJ st (i + 2)
    shuffleAux i st (jsSwap l (i + 1) j)

/-- carve (generation script, lines 30-42).  The seed is first forced to
an unsigned 32-bit value by seed >>> 0.  After the shuffle, the first
blanks entries of the index array select the characters replaced by a dot;
a write through an undefined index (chars[undefined] in JS) adds a string
property that join ignores, so it leaves the 81 joined characters
unchanged and is modelled as a no-op. -/
def blankWrite (chars : List Char) (o : Option Nat) : List Char :=
  match o with
  | none => chars
  | some k => chars.set k '.'

def carve (solution : List Char) (blanks : Nat) (seed : Nat) : List Char :=
  let indices := shuffleAux 80 (seed % 4294967296) ((List.range 81).map some)
  (List.range blanks).foldl (fun chars i => blankWrite chars (jsGetElem indices i)) solution

def knownSolution1 : List Char :=
  "534678912672195348198342567859761423426853791713924856961537284287419635345286179".data

def knownSolution2 : List Char :=
  "417369825632158947958724316825437169791586432346912758289643571573291684164875293".data

def knownSolution3 : List Char :=
  "295743861431865927876192543387459216612387495549216738763524189928671354154938672".data

/-- knownSolutions (generation script, lines 16-20). -/
def knownSolutions : List (List Char) := [knownSolution1, knownSolution2, knownSolution3]

/-- The rounded quotient overshoots num / den by less than half an ulp:
2 * rndDiv num den * den ≤ 2 * num + den. -/
theorem rndDiv_le (num den : Nat) (hden : 0 < den) :
    2 * rndDiv num den * den ≤ 2 * num + den := by
  unfold rndDiv
  have hdm : den * (num / den) + num % den = num := Nat.div_add_mod num den
  have hlt : num % den < den := Nat.mod_lt num hden
  set q := num / den with hq
  set r := num % den with hr
  by_cases h1 : 2 * r < den
  · rw [if_pos h1]
    have hx : 2 * (den * q + r) + den = 2 * q * den + (2 * r + den) := by ring
    rw [← hdm, hx]
    exact Nat.le_add_right _ _
  · rw [if_neg h1]
    have hle : den ≤ 2 * r := by omega
    have hgoal : 2 * (q + 1) * den ≤ 2 * num + den := by
      have hx : 2 * (q + 1) * den = 2 * q * den + 2 * den := by ring
      have hy : 2 * (den * q + r) + den = 2 * q * den + (2 * r + den) := by ring
      rw [← hdm, hx, hy]
      exact Nat.add_le_add_left (by omega) _
    by_cases h2 : den < 2 * r
    · rw [if_pos h2]
      exact hgoal
    · rw [if_neg h2]
      by_cases h3 : q % 2 = 0
      · rw [if_pos h3]
        have hx : 2 * (den * q + r) + den = 2 * q * den + (2 * r + den) := by ring
        rw [← hdm, hx]
        exact Nat.le_add_right _ _
      · rw [if_neg h3]
        exact hgoal

/-- With enough fuel, floorLog2Aux computes the floor of the base-2
logarithm: 2^result ≤ n < 2^(result + 1). -/
theorem floorLog2Aux_spec : ∀ (fuel n : Nat), 0 < n → n < 2 ^ fuel →
    2 ^ floorLog2Aux fuel n ≤ n ∧ n < 2 ^ (floorLog2Aux fuel n + 1)
  | 0, n, hpos, hlt => by rw [pow_zero] at hlt; omega
  | fuel + 1, n, hpos, hlt => by
    rw [floorLog2Aux]
    by_cases h1 : n ≤ 1
    · rw [if_pos h1]
      refine ⟨by simpa using hpos, by rw [pow_one]; omega⟩
    · rw [if_neg h1]
      have hhalf : n / 2 < 2 ^ fuel := by
        rw [pow_succ] at hlt
        exact (Nat.div_lt_iff_lt_mul (by norm_num)).2 hlt
      obtain ⟨ha, hb⟩ := floorLog2Aux_spec fuel (n / 2) (by omega) hhalf
      refine ⟨?_, ?_⟩
      · calc 2 ^ (floorLog2Aux fuel (n / 2) + 1)
            = 2 ^ floorLog2Aux fuel (n / 2) * 2 := pow_succ 2 _
          _ ≤ n / 2 * 2 := Nat.mul_le_mul_right 2 ha
          _ ≤ n := by omega
      · have hb3 : (n / 2 + 1) * 2 ≤ 2 ^ (floorLog2Aux fuel (n / 2) + 1) * 2 :=
          Nat.mul_le_mul_right 2 hb
        calc n < (n / 2 + 1) * 2 := by omega
          _ ≤ 2 ^ (floorLog2Aux fuel (n / 2) + 1) * 2 := hb3
          _ = 2 ^ (floorLog2Aux fuel (n / 2) + 1 + 1) := (pow_succ 2 _).symm

theorem floorLog2_spec (n : Nat) (hpos : 0 < n) (hlt : n < 2 ^ 128) :
    2 ^ floorLog2 n ≤ n ∧ n < 2 ^ (floorLog2 n + 1) :=
  floorLog2Aux_spec 128 n hpos hlt

/-- For a 32-bit state other than 0xffffffff and a factor 2 ≤ f ≤ 81 the
IEEE-evaluated swap index floatJ state f stays below f, as the in-range
Fisher-Yates step requires: the quotient double is at most
(2 * state + 1) / (2 * 0xffffffff) < 1 - 1 / 2^34, the rounded product
at most that times f plus half an ulp, still below f. -/
theorem floatJ_lt (st f : Nat) (hst : st < 4294967296) (hne : st ≠ 4294967295)
    (hf2 : 2 ≤ f) (hf81 : f ≤ 81) : floatJ st f < f := by
  by_cases hst0 : st = 0
  · subst hst0
    have h0 : floatJ 0 f = 0 := by simp [floatJ, flDiv]
    omega
  · have hpos : 0 < st := Nat.pos_of_ne_zero hst0
    obtain ⟨hl1, hl2⟩ := floorLog2_spec st hpos (lt_trans hst (by norm_num))
    have hl31 : floorLog2 st ≤ 31 := by
      by_contra hcon
      have h32 : (2:Nat) ^ 32 ≤ 2 ^ floorLog2 st :=
        Nat.pow_le_pow_right (by norm_num) (by omega)
      omega
    have hmul_lt : st * 2 ^ (31 - floorLog2 st) < 4294967296 := by
      have h1 : st * 2 ^ (31 - floorLog2 st)
          < 2 ^ (floorLog2 st + 1) * 2 ^ (31 - floorLog2 st) :=
        mul_lt_mul_of_pos_right hl2 (pow_pos (by norm_num) _)
      have h2 : (2:Nat) ^ (floorLog2 st + 1) * 2 ^ (31 - floorLog2 st) = 2 ^ 32 := by
        rw [← pow_add]
        congr 1
        omega
      rw [h2] at h1
      omega
    have hmul_ne : st * 2 ^ (31 - floorLog2 st) ≠ 4294967295 := by
      rcases Nat.eq_zero_or_pos (31 - floorLog2 st) with hz | hp
      · rw [hz, pow_zero, Nat.mul_one]
        exact hne
      · intro heq
        have hdvd : 2 ∣ st * 2 ^ (31 - floorLog2 st) :=
          Dvd.dvd.mul_left (dvd_pow_self 2 (by omega)) st
        rw [heq] at hdvd
        omega
    have hbranch : ¬ (4294967295 ≤ st * 2 ^ (31 - floorLog2 st)) := by omega
    have hsum : 52 + (31 - floorLog2 st + 1) = 84 - floorLog2 st := by omega
    have hfl : flDiv st = (rndDiv (st * 2 ^ (84 - floorLog2 st)) 4294967295,
        84 - floorLog2 st) := by
      unfold flDiv
      rw [if_neg hst0]
      simp only [if_neg hbranch]
      rw [hsum]
    rw [floatJ, hfl]
    simp only
    set m := rndDiv (st * 2 ^ (84 - floorLog2 st)) 4294967295 with hmdef
    by_cases hprod0 : m * f = 0
    · rw [if_pos hprod0]
      omega
    · rw [if_neg hprod0]
      have hm_up : 2 * m * 4294967295
          ≤ 2 * (st * 2 ^ (84 - floorLog2 st)) + 4294967295 :=
        rndDiv_le _ _ (by norm_num)
      have hstep : st * 2 ^ (84 - floorLog2 st) + 2 ^ (84 - floorLog2 st) ≤ 2 ^ 85 := by
        have h1 : (st + 1) * 2 ^ (84 - floorLog2 st)
            ≤ 2 ^ (floorLog2 st + 1) * 2 ^ (84 - floorLog2 st) :=
          Nat.mul_le_mul_right _ (by omega)
        have h2 : (2:Nat) ^ (floorLog2 st + 1) * 2 ^ (84 - floorLog2 st) = 2 ^ 85 := by
          rw [← pow_add]
          congr 1
          omega
        have h3 : st * 2 ^ (84 - floorLog2 st) + 2 ^ (84 - floorLog2 st)
            = (st + 1) * 2 ^ (84 - floorLog2 st) := by ring
        rw [h3, ← h2]
        exact h1
      have hP53 : (2:Nat) ^ 53 ≤ 2 ^ (84 - floorLog2 st) :=
        Nat.pow_le_pow_right (by norm_num) (by omega)
      have hm53 : m ≤ 2 ^ 53 := by omega
      have hprod_le : m * f ≤ 2 ^ 53 * 81 := Nat.mul_le_mul hm53 hf81
      obtain ⟨hLa, hLb⟩ := floorLog2_spec (m * f) (Nat.pos_of_ne_zero hprod0) (by omega)
      have hL59 : floorLog2 (m * f) ≤ 59 := by
        by_contra hcon
        have h60 : (2:Nat) ^ 60 ≤ 2 ^ floorLog2 (m * f) :=
          Nat.pow_le_pow_right (by norm_num) (by omega)
        omega
      have hQ128 : (2:Nat) ^ (floorLog2 (m * f) - 52) ≤ 128 := by
        calc (2:Nat) ^ (floorLog2 (m * f) - 52) ≤ 2 ^ 7 :=
              Nat.pow_le_pow_right (by norm_num) (by omega)
          _ = 128 := by norm_num
      have hm2_up : 2 * rhe (m * f) (floorLog2 (m * f) - 52)
            * 2 ^ (floorLog2 (m * f) - 52)
          ≤ 2 * (m * f) + 2 ^ (floorLog2 (m * f) - 52) :=
        rndDiv_le _ _ (pow_pos (by norm_num) _)
      have hRQ : (2:Nat) ^ (84 - floorLog2 st - (floorLog2 (m * f) - 52))
            * 2 ^ (floorLog2 (m * f) - 52) = 2 ^ (84 - floorLog2 st) := by
        rw [← pow_add]
        congr 1
        omega
      rw [Nat.div_lt_iff_lt_mul (pow_pos (by norm_num) _)]
      by_contra hcon
      push_neg at hcon
      have step1 : 2 * f * 2 ^ (84 - floorLog2 st)
          ≤ 2 * (m * f) + 2 ^ (floorLog2 (m * f) - 52) := by
        calc 2 * f * 2 ^ (84 - floorLog2 st)
            = 2 * (f * 2 ^ (84 - floorLog2 st - (floorLog2 (m * f) - 52)))
              * 2 ^ (floorLog2 (m * f) - 52) := by rw [← hRQ]; ring
          _ ≤ 2 * rhe (m * f) (floorLog2 (m * f) - 52)
              * 2 ^ (floorLog2 (m * f) - 52) :=
              Nat.mul_le_mul_right _ (Nat.mul_le_mul_left 2 hcon)
          _ ≤ 2 * (m * f) + 2 ^ (floorLog2 (m * f) - 52) := hm2_up
      have hmA : 2 * m * 4294967295
          ≤ 2 * (4294967294 * 2 ^ (84 - floorLog2 st)) + 4294967295 := by
        have h4 : st * 2 ^ (84 - floorLog2 st)
            ≤ 4294967294 * 2 ^ (84 - floorLog2 st) :=
          Nat.mul_le_mul_right _ (by omega)
        omega
      have hmf2 : 2 * (m * f) * 4294967295
          ≤ 2 * 4294967294 * (f * 2 ^ (84 - floorLog2 st)) + 4294967295 * f := by
        calc 2 * (m * f) * 4294967295 = 2 * m * 4294967295 * f := by ring
          _ ≤ (2 * (4294967294 * 2 ^ (84 - floorLog2 st)) + 4294967295) * f :=
              Nat.mul_le_mul_right f hmA
          _ = 2 * 4294967294 * (f * 2 ^ (84 - floorLog2 st)) + 4294967295 * f := by
              ring
      have hcd : 2 * (f * 2 ^ (84 - floorLog2 st)) * 4294967295
          ≤ 2 * (m * f) * 4294967295
            + 2 ^ (floorLog2 (m * f) - 52) * 4294967295 := by
        calc 2 * (f * 2 ^ (84 - floorLog2 st)) * 4294967295
            = (2 * f * 2 ^ (84 - floorLog2 st)) * 4294967295 := by ring
          _ ≤ (2 * (m * f) + 2 ^ (floorLog2 (m * f) - 52)) * 4294967295 :=
              Nat.mul_le_mul_right _ step1
          _ = _ := by ring
      have hC_lo : 2 * 2 ^ 53 ≤ f * 2 ^ (84 - floorLog2 st) :=
        Nat.mul_le_mul hf2 hP53
      omega


theorem mem_take_iff_getElem? {α : Type} {l : List α} {b : Nat} {a : α} :
    a ∈ l.take b ↔ ∃ i < b, l[i]? = some a := by
  constructor
  · intro h
    obtain ⟨i, hi, hEl⟩ := List.getElem_of_mem h
    have hib : i < b := by
      have hlt : (l.take b).length = min b l.length := by simp
      omega
    refine ⟨i, hib, ?_⟩
    rw [← List.getElem?_take_of_lt hib]
    rw [List.getElem?_eq_getElem hi, hEl]
  · rintro ⟨i, hib, hEl⟩
    have h2 : (l.take b)[i]? = some a := by
      rw [List.getElem?_take_of_lt hib, hEl]
    exact List.getElem?_mem h2

/-- Length is preserved by the blanking fold of carve. -/
theorem blankFold_length (ws : List (Option Nat)) (chars : List Char) :
    (ws.foldl blankWrite chars).length = chars.length := by
  induction ws generalizing chars with
  | nil => rfl
  | cons w ws ih =>
    rw [List.foldl_cons]
    cases w with
    | none => exact ih chars
    | some k =>
      show (ws.foldl blankWrite (chars.set k '.')).length = chars.length
      rw [ih]
      exact List.length_set ..

/-- A cell ends up blanked by the fold exactly when its index occurs in
the write list; every character written is a dot, so write order and
duplicate writes are immaterial. -/
theorem blankFold_getElem? (ws : List (Option Nat)) (chars : List Char) (p : Nat) :
    (ws.foldl blankWrite chars)[p]? =
      if some p ∈ ws then (if p < chars.length then some '.' else none) else chars[p]? := by
  induction ws generalizing chars with
  | nil => simp
  | cons w ws ih =>
    rw [List.foldl_cons]
    cases w with
    | none =>
      show (ws.foldl blankWrite chars)[p]? = _
      rw [ih]
      simp only [List.mem_cons]
      have : (some p = none) = False := by simp
      simp [this]
    | some k =>
      show (ws.foldl blankWrite (chars.set k '.'))[p]? = _
      rw [ih]
      by_cases hkp : k = p
      · subst hkp
        simp only [List.mem_cons, List.length_set]
        by_cases hmem : some k ∈ ws
        · simp [hmem]
        · by_cases hlt : k < chars.length
          · simp [hmem, hlt, List.getElem?_set_self, List.getElem?_eq_getElem hlt]
          · simp [hmem, hlt, List.getElem?_set, List.getElem?_eq_none (by omega : chars.length ≤ k)]
      · have hne : (some p = some k) = False := by simp [Ne.symm hkp]
        simp only [List.mem_cons, hne, List.length_set, false_or]
        rw [List.getElem?_set_ne (by omega : k ≠ p)]

theorem mem_writes_iff (indices : List (Option Nat)) (b p : Nat) :
    some p ∈ (List.range b).map (jsGetElem indices) ↔ some p ∈ indices.take b := by
  rw [List.mem_map, mem_take_iff_getElem?]
  constructor
  · rintro ⟨i, hi, hg⟩
    rw [List.mem_range] at hi
    refine ⟨i, hi, ?_⟩
    unfold jsGetElem at hg
    rw [List.getD_eq_getElem?_getD] at hg
    cases h : indices[i]? with
    | none => rw [h] at hg; exact Option.noConfusion hg
    | some o =>
      rw [h, Option.getD_some] at hg
      rw [hg]
  · rintro ⟨i, hib, h⟩
    refine ⟨i, List.mem_range.2 hib, ?_⟩
    unfold jsGetElem
    rw [List.getD_eq_getElem?_getD, h, Option.getD_some]

/-- The write loop of carve equals blanking by membership in the first
blanks entries of the index list. -/
theorem carve_blank_eq_mapIdx (indices : List (Option Nat)) (sol : List Char) (b : Nat) :
    (List.range b).foldl (fun chars i => blankWrite chars (jsGetElem indices i)) sol =
    sol.mapIdx (fun p c => if some p ∈ indices.take b then '.' else c) := by
  have key : (List.range b).foldl (fun chars i => blankWrite chars (jsGetElem indices i)) sol =
      ((List.range b).map (jsGetElem indices)).foldl blankWrite sol := by
    rw [List.foldl_map]
  rw [key]
  apply List.ext_getElem
  · rw [blankFold_length, List.length_mapIdx]
  · intro p h1 h2
    have hps : p < sol.length := by
      have := blankFold_length ((List.range b).map (jsGetElem indices)) sol
      omega
    have hl := blankFold_getElem? ((List.range b).map (jsGetElem indices)) sol p
    rw [List.getElem?_eq_getElem h1] at hl
    rw [List.getElem_mapIdx]
    simp only [mem_writes_iff] at hl
    by_cases hmem : some p ∈ indices.take b
    · rw [if_pos hmem] at hl ⊢
      rw [if_pos hps] at hl
      exact Option.some_injective _ hl
    · rw [if_neg hmem] at hl ⊢
      rw [List.getElem?_eq_getElem hps] at hl
      exact Option.some_injective _ hl

/-- C6: parseGrid succeeds exactly on inputs of 81 characters drawn from
the alphabet dot, dash, 0 (empty cell) and 1-9 (that digit); any other
input fails with the format error, and on success the grid has 81 cells
with cell i determined by character i. -/
theorem parseGrid_success_spec (g : List Char) :
    ((∃ r, parseGrid g = Except.ok r) ↔ (g.length = 81 ∧ ∀ c ∈ g, validChar c)) ∧
    (∀ r, parseGrid g = Except.ok r → r.length = 81 ∧
      ∀ i < 81, r.getD i none = cellOfChar (g.getD i ' ')) := by
  constructor
  · constructor
    · rintro ⟨r, hr⟩
      obtain ⟨h1, h2, _⟩ := parseGrid_ok_iff.1 hr
      exact ⟨h1, h2⟩
    · rintro ⟨h1, h2⟩
      exact ⟨g.map cellOfChar, parseGrid_ok_iff.2 ⟨h1, h2, rfl⟩⟩
  · intro r hr
    obtain ⟨h1, _, rfl⟩ := parseGrid_ok_iff.1 hr
    constructor
    · simp [h1]
    · intro i hi
      have hig : i < g.length := by omega
      rw [List.getD_eq_getElem?_getD, List.getD_eq_getElem?_getD, List.getElem?_map]
      rw [List.getElem?_eq_getElem hig]
      simp

set_option maxRecDepth 40000 in
/-- Witness for C6 at the first known solution string. -/
theorem parseGrid_success_spec_witness :
    (knownSolution1.map cellOfChar).length = 81 ∧
      ∀ i < 81, (knownSolution1.map cellOfChar).getD i none =
        cellOfChar (knownSolution1.getD i ' ') :=
  (parseGrid_success_spec knownSolution1).2 (knownSolution1.map cellOfChar) (by rfl)

/-- Witness for C1 at a concrete grid. -/
theorem computeConflicts_correct_witness :
    (List.replicate 81 (none : Option Nat)).length = 81 ∧
      (5 ∈ computeConflicts (List.replicate 81 (none : Option Nat)) ↔
        conflictSpec (List.replicate 81 (none : Option Nat)) 5) :=
  ⟨by simp, computeConflicts_correct _ (by simp) 5⟩

set_option maxRecDepth 80000 in
/-- C9: each of the three known complete solutions parses successfully
with all 81 cells holding a digit, and computeConflicts of the parsed grid
is empty. -/
theorem knownSolutions_conflictFree : ∀ s ∈ knownSolutions,
    (parseGrid s).map computeConflicts = Except.ok ∅ ∧
      (parseGrid s).map (fun r => r.all (fun o => o.isSome)) = Except.ok true ∧
      (parseGrid s).map List.length = Except.ok 81 := by
  intro s hs
  unfold knownSolutions at hs
  rcases List.mem_cons.1 hs with rfl | hs
  · exact ⟨rfl, rfl, rfl⟩
  rcases List.mem_cons.1 hs with rfl | hs
  · exact ⟨rfl, rfl, rfl⟩
  rcases List.mem_cons.1 hs with rfl | hs
  · exact ⟨rfl, rfl, rfl⟩
  · exact absurd hs (List.not_mem_nil s)

set_option maxRecDepth 80000 in
/-- Witness for C9 at the first known solution. -/
theorem knownSolutions_conflictFree_witness :
    (parseGrid knownSolution1).map computeConflicts = Except.ok ∅ ∧
      (parseGrid knownSolution1).map (fun r => r.all (fun o => o.isSome)) = Except.ok true ∧
      (parseGrid knownSolution1).map List.length = Except.ok 81 :=
  knownSolutions_conflictFree knownSolution1 (by simp [knownSolutions])

/-- Moving the inhabitant of position j to the front while x takes its
place permutes consing x. -/
theorem getD_cons_set_perm : ∀ (t : List Nat) (j : Nat) (x : Nat), j < t.length →
    List.Perm (t.getD j 0 :: t.set j x) (x :: t)
  | [], j, x, h => absurd h (by simp)
  | y :: u, 0, x, _ => List.Perm.swap x y u
  | y :: u, j + 1, x, h => by
    have hj : j < u.length := by simpa using h
    show List.Perm (u.getD j 0 :: y :: u.set j x) (x :: y :: u)
    exact (List.Perm.swap y (u.getD j 0) (u.set j x)).trans
      ((List.Perm.cons y (getD_cons_set_perm u j x hj)).trans (List.Perm.swap x y u))

/-- The in-bounds double-set swap permutes the list. -/
theorem set_set_perm : ∀ (l : List Nat) (i j : Nat), i < l.length → j < l.length →
    List.Perm ((l.set i (l.getD j 0)).set j (l.getD i 0)) l
  | [], i, _, hi, _ => absurd hi (by simp)
  | a :: t, 0, 0, _, _ => by
    show List.Perm (a :: t) (a :: t)
    exact List.Perm.refl _
  | a :: t, 0, j + 1, _, hj => by
    have hj2 : j < t.length := by simpa using hj
    show List.Perm (t.getD j 0 :: t.set j a) (a :: t)
    exact getD_cons_set_perm t j a hj2
  | a :: t, i + 1, 0, hi, _ => by
    have hi2 : i < t.length := by simpa using hi
    show List.Perm (t.getD i 0 :: t.set i a) (a :: t)
    exact getD_cons_set_perm t i a hi2
  | a :: t, i + 1, j + 1, hi, hj => by
    have hi2 : i < t.length := by simpa using hi
    have hj2 : j < t.length := by simpa using hj
    show List.Perm (a :: (t.set i (t.getD j 0)).set j (t.getD i 0)) (a :: t)
    exact List.Perm.cons a (set_set_perm t i j hi2 hj2)

theorem getD_map_some (m : List Nat) (k : Nat) (hk : k < m.length) :
    (m.map some).getD k none = some (m.getD k 0) := by
  rw [List.getD_eq_getElem?_getD, List.getD_eq_getElem?_getD, List.getElem?_map,
    List.getElem?_eq_getElem hk]
  rfl

/-- An in-bounds JS swap on a fully defined array is the double-set swap
under the some embedding. -/
theorem jsSwap_map_some (m : List Nat) (i j : Nat) (hi : i < m.length) (hj : j < m.length) :
    jsSwap (m.map some) i j = ((m.set i (m.getD j 0)).set j (m.getD i 0)).map some := by
  simp only [jsSwap, jsGetElem, jsSetElem]
  rw [getD_map_some m i hi, getD_map_some m j hj]
  have hi2 : i < (List.map some m).length := by simpa using hi
  rw [if_pos hi2, ← List.map_set]
  have hj2 : j < ((m.set i (m.getD j 0)).map some).length := by
    simp only [List.length_map, List.length_set]
    exact hj
  rw [if_pos hj2, ← List.map_set]

/-- As long as the loop index stays at most 80 and no drawn LCG state is
2^32 - 1 (no stream value is exactly 1), the shuffle keeps the array
fully defined and permutes its contents: by floatJ_lt every drawn swap
index is in range. -/
theorem shuffleAux_good : ∀ (n : Nat) (st : Nat) (m : List Nat), n ≤ 80 →
    n < m.length →
    (∀ k < n, lcg^[k + 1] st ≠ 4294967295) →
    ∃ m2, shuffleAux n st (m.map some) = m2.map some ∧ List.Perm m2 m
  | 0, _, m, _, _, _ => ⟨m, rfl, List.Perm.refl m⟩
  | n + 1, st, m, hn, hlen, hgood => by
    have hst : lcg st ≠ 4294967295 := by
      have := hgood 0 (by omega)
      simpa using this
    have hstmod : lcg st < 4294967296 := Nat.mod_lt _ (by norm_num)
    set j := floatJ (lcg st) (n + 2) with hjdef
    have hjle : j ≤ n + 1 := by
      have := floatJ_lt (lcg st) (n + 2) hstmod hst (by omega) (by omega)
      omega
    have hjlt : j < m.length := by omega
    have hilt : n + 1 < m.length := hlen
    set m1 := (m.set (n + 1) (m.getD j 0)).set j (m.getD (n + 1) 0) with hm1def
    have hm1len : m1.length = m.length := by
      rw [hm1def, List.length_set, List.length_set]
    obtain ⟨m2, heq, hperm⟩ := shuffleAux_good n (lcg st) m1
      (by omega)
      (by omega)
      (by
        intro k hk
        have := hgood (k + 1) (by omega)
        rwa [Function.iterate_succ_apply] at this)
    refine ⟨m2, ?_, hperm.trans (set_set_perm m (n + 1) j hilt hjlt)⟩
    rw [shuffleAux]
    show shuffleAux n (lcg st) (jsSwap (m.map some) (n + 1) j) = m2.map some
    rw [jsSwap_map_some m (n + 1) j hilt hjlt, ← hm1def, heq]

theorem cellOfChar_digit {c : Char} (h1 : '1' ≤ c) (h9 : c ≤ '9') :
    cellOfChar c = some (c.toNat - 48) := by
  unfold cellOfChar
  rw [if_neg]
  rintro (rfl | rfl | rfl)
  · exact absurd h1 (by decide)
  · exact absurd h1 (by decide)
  · exact absurd h1 (by decide)

/-- Core roundtrip property of carve, shared with the analysis of the
fallback generator: for a solution of 81 digit characters 1-9, a blank
count at most 81, and a seed none of whose 80 drawn LCG states equals
2^32 - 1, parsing the carved string succeeds, exactly blankCount cells
are empty, and every other cell matches the solution. -/
theorem carve_roundtrip_aux (sol : List Char) (b seed : Nat)
    (hlen : sol.length = 81)
    (hdig : ∀ c ∈ sol, '1' ≤ c ∧ c ≤ '9')
    (hb : b ≤ 81)
    (hseed : ∀ k < 80, lcg^[k + 1] (seed % 4294967296) ≠ 4294967295) :
    ∃ r, parseGrid (carve sol b seed) = Except.ok r ∧
      ((Finset.range 81).filter (fun p => r.getD p none = none)).card = b ∧
      ∀ p < 81, r.getD p none = none ∨ r.getD p none = cellOfChar (sol.getD p ' ') := by
  obtain ⟨m2, henc, hperm⟩ := shuffleAux_good 80 (seed % 4294967296) (List.range 81)
    (by norm_num) (by simp) hseed
  have hm2len : m2.length = 81 := by
    have h := hperm.length_eq
    simpa using h
  have hm2nd : m2.Nodup := (List.Perm.nodup_iff hperm).2 (List.nodup_range 81)
  have hm2sub : ∀ x ∈ m2, x < 81 := fun x hx => List.mem_range.1 (hperm.subset hx)
  have hcarve : carve sol b seed =
      sol.mapIdx (fun p c => if p ∈ m2.take b then '.' else c) := by
    show (List.range b).foldl (fun chars i =>
        blankWrite chars
          (jsGetElem (shuffleAux 80 (seed % 4294967296) ((List.range 81).map some)) i))
        sol = _
    rw [henc, carve_blank_eq_mapIdx]
    have hfun : (fun (p : Nat) (c : Char) =>
          if some p ∈ (m2.map some).take b then '.' else c) =
        (fun (p : Nat) (c : Char) => if p ∈ m2.take b then '.' else c) := by
      funext p c
      have hmem : (some p ∈ (m2.map some).take b) ↔ (p ∈ m2.take b) := by
        rw [← List.map_take some m2 b]
        simp only [List.mem_map, Option.some.injEq, exists_eq_right]
      by_cases hp : p ∈ m2.take b
      · rw [if_pos hp, if_pos (hmem.2 hp)]
      · rw [if_neg hp, if_neg (fun hx => hp (hmem.1 hx))]
    rw [hfun]
  have hreslen : (carve sol b seed).length = 81 := by
    rw [hcarve, List.length_mapIdx, hlen]
  have hvalid : ∀ c ∈ carve sol b seed, validChar c := by
    intro c hc
    rw [hcarve] at hc
    obtain ⟨p, hp, hfc⟩ := List.mem_mapIdx.1 hc
    by_cases hmem : p ∈ m2.take b
    · rw [if_pos hmem] at hfc
      rw [← hfc]
      exact Or.inl rfl
    · rw [if_neg hmem] at hfc
      rw [← hfc]
      have hd := hdig _ (List.getElem_mem hp)
      exact Or.inr (Or.inr (Or.inr hd))
  have hok : parseGrid (carve sol b seed) =
      Except.ok ((carve sol b seed).map cellOfChar) :=
    parseGrid_ok_iff.2 ⟨hreslen, hvalid, rfl⟩
  have hcell : ∀ p, p < 81 → ((carve sol b seed).map cellOfChar).getD p none =
      if p ∈ m2.take b then none else cellOfChar (sol.getD p ' ') := by
    intro p hp
    have hps : p < sol.length := by omega
    rw [hcarve, List.getD_eq_getElem?_getD, List.getElem?_map]
    have hpM : p < (sol.mapIdx (fun p c => if p ∈ m2.take b then '.' else c)).length := by
      rw [List.length_mapIdx]
      omega
    rw [List.getElem?_eq_getElem hpM, List.getElem_mapIdx]
    by_cases hqm : p ∈ m2.take b
    · rw [if_pos hqm, if_pos hqm]
      decide
    · rw [if_neg hqm, if_neg hqm]
      have hgd : sol.getD p ' ' = sol[p] := by
        rw [List.getD_eq_getElem?_getD, List.getElem?_eq_getElem hps]
        rfl
      show cellOfChar (sol[p]) = cellOfChar (sol.getD p ' ')
      rw [hgd]
  refine ⟨(carve sol b seed).map cellOfChar, hok, ?_, ?_⟩
  · have hset : (Finset.range 81).filter
        (fun p => ((carve sol b seed).map cellOfChar).getD p none = none) =
        (m2.take b).toFinset := by
      ext q
      simp only [Finset.mem_filter, Finset.mem_range, List.mem_toFinset]
      constructor
      · rintro ⟨hq81, hqnone⟩
        rw [hcell q hq81] at hqnone
        by_cases hqm : q ∈ m2.take b
        · exact hqm
        · rw [if_neg hqm] at hqnone
          have hqs : q < sol.length := by omega
          have hdq : sol.getD q ' ' ∈ sol := by
            rw [List.getD_eq_getElem?_getD, List.getElem?_eq_getElem hqs]
            exact List.getElem_mem hqs
          obtain ⟨hd1, hd9⟩ := hdig _ hdq
          rw [cellOfChar_digit hd1 hd9] at hqnone
          exact Option.noConfusion hqnone
      · intro hqm
        have hq81 : q < 81 := hm2sub q (List.mem_of_mem_take hqm)
        refine ⟨hq81, ?_⟩
        rw [hcell q hq81, if_pos hqm]
    rw [hset]
    rw [List.toFinset_card_of_nodup (List.Nodup.sublist (List.take_sublist b m2) hm2nd)]
    rw [List.length_take]
    omega
  · intro p hp
    rw [hcell p hp]
    by_cases hqm : p ∈ m2.take b
    · rw [if_pos hqm]
      exact Or.inl rfl
    · rw [if_neg hqm]
      exact Or.inr rfl

/-- C2 (amended): for a solution of 81 digit characters 1-9, a blank count
at most 81, and a seed none of whose 80 drawn LCG states equals
2^32 - 1 = 4294967295 (no stream value is exactly 1), parsing the carved
string succeeds, the parsed grid has exactly blankCount empty cells among
its 81 positions, and every non-empty cell holds the digit of the solution
at that index. -/
theorem carve_roundtrip (sol : List Char) (b seed : Nat)
    (hlen : sol.length = 81)
    (hdig : ∀ c ∈ sol, '1' ≤ c ∧ c ≤ '9')
    (hb : b ≤ 81)
    (hseed : ∀ k < 80, lcg^[k + 1] (seed % 4294967296) ≠ 4294967295) :
    ∃ r, parseGrid (carve sol b seed) = Except.ok r ∧
      ((Finset.range 81).filter (fun p => r.getD p none = none)).card = b ∧
      ∀ p < 81, r.getD p none = none ∨ r.getD p none = cellOfChar (sol.getD p ' ') :=
  carve_roundtrip_aux sol b seed hlen hdig hb hseed

set_option maxRecDepth 100000 in
/-- Witness for C2 at knownSolution1 with 3 blanks and seed 0. -/
theorem carve_roundtrip_witness :
    (∀ k < 80, lcg^[k + 1] (0 % 4294967296) ≠ 4294967295) ∧
    ∃ r, parseGrid (carve knownSolution1 3 0) = Except.ok r ∧
      ((Finset.range 81).filter (fun p => r.getD p none = none)).card = 3 ∧
      ∀ p < 81, r.getD p none = none ∨
        r.getD p none = cellOfChar (knownSolution1.getD p ' ') :=
  ⟨by decide, carve_roundtrip knownSolution1 3 0 (by decide) (by decide) (by decide)
    (by decide)⟩

set_option maxRecDepth 200000 in
/-- Counterexample to C2 as stated.  At seed 653637408 the first LCG state
is 4294967295 = 2^32 - 1, so the stream value state / (2^32 - 1) is
exactly 1 and the swap index Math.floor(1 * 81) = 81 falls outside the
81-entry array at loop index 80: the JS destructuring swap stores
undefined into slot 80 and appends the displaced index 80 at slot 81.
The first 81 slots of the shuffled order then contain only 80 real
indices, and carving 81 blanks out of knownSolution1 blanks only 80
cells, not 81 as the claim requires for every seed. -/
theorem carve_roundtrip_counterexample :
    ¬ ∃ r, parseGrid (carve knownSolution1 81 653637408) = Except.ok r ∧
        ((Finset.range 81).filter (fun p => r.getD p none = none)).card = 81 ∧
        ∀ p < 81, r.getD p none = none ∨
          r.getD p none = cellOfChar (knownSolution1.getD p ' ') := by
  rintro ⟨r, hok, hcard, _⟩
  obtain ⟨_, _, rfl⟩ := parseGrid_ok_iff.1 hok
  revert hcard
  decide

/-- Snapshot of the mutable play state (App component, lines 10-13):
entries and per-cell note lists.  The deep copies of the source are
identities in the pure model. -/
structure Snapshot where
  entries : List (Option Nat)
  notes : List (List Nat)

/-- The game session state (lines 15-27).  UI-only fields never read or
written by the modelled operations (difficulty, puzzle, puzzleIndex,
elapsedSeconds) are omitted. -/
structure GameSession where
  givens : List Bool
  entries : List (Option Nat)
  notes : List (List Nat)
  selected : Option Nat
  notesMode : Bool
  undo : List Snapshot
  redo : List Snapshot

/-- snapshotOf (lines 41-46). -/
def snapshotOf (s : GameSession) : Snapshot :=
  { entries := s.entries, notes := s.notes }

/-- The push-then-shift step of applyWithHistory (lines 210-213): push
onto the undo stack and drop the oldest entry when the length exceeds
200. -/
def capPush (undoStack : List Snapshot) (snap : Snapshot) : List Snapshot :=
  let pushed := undoStack ++ [snap]
  if 200 < pushed.length then pushed.tail else pushed

/-- applyWithHistory (lines 196-217): snapshot the current state, run the
mutator on a draft copy, push the snapshot onto the draft undo stack with
the 200 cap, and clear redo. -/
def applyWithHistory (mutator : GameSession → GameSession) (s : GameSession) : GameSession :=
  let draft := mutator s
  { draft with undo := capPush draft.undo (snapshotOf s), redo := [] }

/-- The note toggle inside applyNumber (lines 226-232): JS Set toggle
followed by an ascending numeric sort. -/
def toggleNote (ns : List Nat) (v : Nat) : List Nat :=
  if v ∈ ns then ns.filter (fun x => x != v) else (v :: ns).mergeSort (fun a b => a ≤ b)

/-- applyNumber (lines 219-238). -/
def applyNumber (value : Nat) (s : GameSession) : GameSession :=
  applyWithHistory (fun draft =>
    match draft.selected with
    | none => draft
    | some index =>
      if draft.givens.getD index false then draft
      else if draft.notesMode then
        { draft with notes := draft.notes.set index (toggleNote (draft.notes.getD index []) value) }
      else
        { draft with entries := draft.entries.set index (some value),
                     notes := draft.notes.set index [] }) s

/-- clearCell (lines 240-249). -/
def clearCell (s : GameSession) : GameSession :=
  applyWithHistory (fun draft =>
    match draft.selected with
    | none => draft
    | some index =>
      if draft.givens.getD index false then draft
      else { draft with entries := draft.entries.set index none,
                        notes := draft.notes.set index [] }) s

/-- undo (lines 251-266): with a non-empty undo stack, restore the most
recent snapshot as the current entries and notes, pop it, and push the
replaced state onto redo; otherwise do nothing. -/
def undoAction (s : GameSession) : GameSession :=
  match s.undo.getLast? with
  | none => s
  | some previous =>
    { s with entries := previous.entries, notes := previous.notes,
             undo := s.undo.dropLast, redo := s.redo ++ [snapshotOf s] }

/-- redo (lines 268-283): symmetric inverse of undo. -/
def redoAction (s : GameSession) : GameSession :=
  match s.redo.getLast? with
  | none => s
  | some next =>
    { s with entries := next.entries, notes := next.notes,
             undo := s.undo ++ [snapshotOf s], redo := s.redo.dropLast }

/-- Selecting a cell (board click handler, line 348). -/
def selectCell (index : Nat) (s : GameSession) : GameSession :=
  { s with selected := some index }

/-- Toggling notes mode (lines 169-173 and 358). -/
def toggleNotesMode (s : GameSession) : GameSession :=
  { s with notesMode := !s.notesMode }

/-- createSession (lines 57-74), given the parsed entries of the stored
puzzle string; the puzzle-pack lookup and UI fields are outside the
model. -/
def createSession (entries0 : List (Option Nat)) : GameSession :=
  { givens := entries0.map (fun v => v.isSome)
  , entries := entries0
  , notes := List.replicate 81 []
  , selected := none
  , notesMode := false
  , undo := []
  , redo := [] }

/-- One user-visible session operation. -/
inductive SessionStep : GameSession → GameSession → Prop where
  | applyNum (v : Nat) (s : GameSession) : SessionStep s (applyNumber v s)
  | clear (s : GameSession) : SessionStep s (clearCell s)
  | undo (s : GameSession) : SessionStep s (undoAction s)
  | redo (s : GameSession) : SessionStep s (redoAction s)
  | select (i : Nat) (s : GameSession) : SessionStep s (selectCell i s)
  | toggleMode (s : GameSession) : SessionStep s (toggleNotesMode s)

/-- Reachability by session operations. -/
inductive Reaches : GameSession → GameSession → Prop where
  | refl (s : GameSession) : Reaches s s
  | step {s t u : GameSession} : Reaches s t → SessionStep t u → Reaches s u

theorem undoAction_nil (s : GameSession) (h : s.undo = []) : undoAction s = s := by
  unfold undoAction
  rw [h]
  rfl

theorem redoAction_nil (s : GameSession) (h : s.redo = []) : redoAction s = s := by
  unfold redoAction
  rw [h]
  rfl

theorem undoAction_concat (s : GameSession) (u : List Snapshot) (pre : Snapshot)
    (h : s.undo = u ++ [pre]) :
    undoAction s = { s with entries := pre.entries, notes := pre.notes,
                            undo := u, redo := s.redo ++ [snapshotOf s] } := by
  unfold undoAction
  rw [h, List.getLast?_concat, List.dropLast_concat]

theorem redoAction_concat (s : GameSession) (r : List Snapshot) (nxt : Snapshot)
    (h : s.redo = r ++ [nxt]) :
    redoAction s = { s with entries := nxt.entries, notes := nxt.notes,
                            undo := s.undo ++ [snapshotOf s], redo := r } := by
  unfold redoAction
  rw [h, List.getLast?_concat, List.dropLast_concat]

theorem applyWithHistory_undo (f : GameSession → GameSession) (s : GameSession) :
    (applyWithHistory f s).undo = capPush (f s).undo (snapshotOf s) := rfl

theorem applyWithHistory_redo (f : GameSession → GameSession) (s : GameSession) :
    (applyWithHistory f s).redo = [] := rfl

theorem applyWithHistory_entries (f : GameSession → GameSession) (s : GameSession) :
    (applyWithHistory f s).entries = (f s).entries := rfl

theorem applyWithHistory_notes (f : GameSession → GameSession) (s : GameSession) :
    (applyWithHistory f s).notes = (f s).notes := rfl

theorem capPush_eq_concat (u : List Snapshot) (a : Snapshot) :
    ∃ u2, capPush u a = u2 ++ [a] := by
  unfold capPush
  by_cases h : 200 < (u ++ [a]).length
  · rw [if_pos h]
    cases u with
    | nil => simp at h
    | cons x t => exact ⟨t, by simp⟩
  · rw [if_neg h]
    exact ⟨u, rfl⟩

/-- C4: undo with a non-empty stack restores the most recent snapshot as
the current entries and notes, pops it, and pushes the replaced state onto
redo; undo on an empty stack is a no-op; redo is the symmetric inverse;
recording clears the redo stack; and in the record-record-undo scenario
undo restores the predecessor of the second recorded state, redo restores
that state again, and a record after an undo makes a subsequent redo a
no-op. -/
theorem history_undo_redo_spec :
    (∀ s : GameSession, s.undo = [] → undoAction s = s) ∧
    (∀ s : GameSession, s.redo = [] → redoAction s = s) ∧
    (∀ (s : GameSession) (u : List Snapshot) (pre : Snapshot), s.undo = u ++ [pre] →
      undoAction s = { s with entries := pre.entries, notes := pre.notes,
                              undo := u, redo := s.redo ++ [snapshotOf s] }) ∧
    (∀ (s : GameSession) (r : List Snapshot) (nxt : Snapshot), s.redo = r ++ [nxt] →
      redoAction s = { s with entries := nxt.entries, notes := nxt.notes,
                              undo := s.undo ++ [snapshotOf s], redo := r }) ∧
    (∀ (f : GameSession → GameSession) (s : GameSession),
      (applyWithHistory f s).redo = []) ∧
    (∀ (f1 f2 f3 : GameSession → GameSession) (s0 : GameSession),
      (undoAction (applyWithHistory f2 (applyWithHistory f1 s0))).entries =
          (applyWithHistory f1 s0).entries ∧
      (undoAction (applyWithHistory f2 (applyWithHistory f1 s0))).notes =
          (applyWithHistory f1 s0).notes ∧
      (redoAction (undoAction (applyWithHistory f2 (applyWithHistory f1 s0)))).entries =
          (applyWithHistory f2 (applyWithHistory f1 s0)).entries ∧
      (redoAction (undoAction (applyWithHistory f2 (applyWithHistory f1 s0)))).notes =
          (applyWithHistory f2 (applyWithHistory f1 s0)).notes ∧
      redoAction (applyWithHistory f3
          (undoAction (applyWithHistory f2 (applyWithHistory f1 s0)))) =
        applyWithHistory f3
          (undoAction (applyWithHistory f2 (applyWithHistory f1 s0)))) := by
  refine ⟨undoAction_nil, redoAction_nil, undoAction_concat, redoAction_concat,
    applyWithHistory_redo, ?_⟩
  intro f1 f2 f3 s0
  set s1 := applyWithHistory f1 s0 with hs1
  set s2 := applyWithHistory f2 s1 with hs2
  obtain ⟨u2, hu2⟩ := capPush_eq_concat (f2 s1).undo (snapshotOf s1)
  have hs2undo : s2.undo = u2 ++ [snapshotOf s1] := by
    rw [hs2, applyWithHistory_undo, hu2]
  have hundo := undoAction_concat s2 u2 (snapshotOf s1) hs2undo
  have hredo2 : (undoAction s2).redo = s2.redo ++ [snapshotOf s2] := by
    rw [hundo]
  have hs2redo : s2.redo = [] := applyWithHistory_redo f2 s1
  have hredo := redoAction_concat (undoAction s2) [] (snapshotOf s2)
    (by rw [hredo2, hs2redo, List.nil_append])
  refine ⟨?_, ?_, ?_, ?_, ?_⟩
  · rw [hundo]
    rfl
  · rw [hundo]
    rfl
  · rw [hredo]
    rfl
  · rw [hredo]
    rfl
  · exact redoAction_nil _ (applyWithHistory_redo f3 (undoAction s2))

/-- Witness for C4 on a freshly created empty session. -/
theorem history_undo_redo_spec_witness :
    undoAction (createSession []) = createSession [] ∧
      redoAction (createSession []) = createSession [] :=
  ⟨history_undo_redo_spec.1 _ rfl, history_undo_redo_spec.2.1 _ rfl⟩

/-- When no cell is selected or the selected cell is a given, applyNumber
and clearCell change nothing but the history: shared helper for the
no-op-recording property and the case analyses below. -/
theorem noop_record_aux (s : GameSession) (v : Nat)
    (h : s.selected = none ∨ ∃ i, s.selected = some i ∧ s.givens.getD i false = true) :
    applyNumber v s = { s with undo := capPush s.undo (snapshotOf s), redo := [] } ∧
    clearCell s = { s with undo := capPush s.undo (snapshotOf s), redo := [] } := by
  rcases h with hsel | ⟨i, hsel, hgiv⟩
  · constructor
    · unfold applyNumber applyWithHistory
      simp only [hsel]
    · unfold clearCell applyWithHistory
      simp only [hsel]
  · constructor
    · unfold applyNumber applyWithHistory
      simp only [hsel, hgiv, if_true]
    · unfold clearCell applyWithHistory
      simp only [hsel, hgiv, if_true]

/-- C10: when no cell is selected or the selected cell is a given,
applyNumber and clearCell leave entries and notes unchanged, yet still
push a snapshot of the current state onto the undo stack (with the
200-cap eviction) and clear the redo stack. -/
theorem noop_actions_still_record (s : GameSession) (v : Nat)
    (h : s.selected = none ∨ ∃ i, s.selected = some i ∧ s.givens.getD i false = true) :
    applyNumber v s = { s with undo := capPush s.undo (snapshotOf s), redo := [] } ∧
    clearCell s = { s with undo := capPush s.undo (snapshotOf s), redo := [] } :=
  noop_record_aux s v h

/-- Witness for C10 on a fresh session with no selection. -/
theorem noop_actions_still_record_witness :
    applyNumber 5 (createSession []) =
      { createSession [] with
          undo := capPush (createSession []).undo (snapshotOf (createSession []))
          redo := [] } ∧
    clearCell (createSession []) =
      { createSession [] with
          undo := capPush (createSession []).undo (snapshotOf (createSession []))
          redo := [] } :=
  noop_actions_still_record (createSession []) 5 (Or.inl rfl)

theorem capPush_length (u : List Snapshot) (a : Snapshot) (h : u.length ≤ 200) :
    (capPush u a).length ≤ 200 := by
  unfold capPush
  by_cases hc : 200 < (u ++ [a]).length
  · rw [if_pos hc]
    simp only [List.length_tail, List.length_append, List.length_singleton]
    omega
  · rw [if_neg hc]
    simp only [List.length_append, List.length_singleton] at hc ⊢
    omega

theorem applyNumber_undo (v : Nat) (s : GameSession) :
    (applyNumber v s).undo = capPush s.undo (snapshotOf s) := by
  unfold applyNumber applyWithHistory
  cases hsel : s.selected with
  | none => simp only [hsel]
  | some i =>
    by_cases hgiv : s.givens.getD i false = true
    · simp only [hsel, hgiv, if_true]
    · by_cases hm : s.notesMode = true <;>
        simp only [hsel, hgiv, hm, if_false, Bool.false_eq_true, if_true]

theorem clearCell_undo (s : GameSession) :
    (clearCell s).undo = capPush s.undo (snapshotOf s) := by
  unfold clearCell applyWithHistory
  cases hsel : s.selected with
  | none => simp only [hsel]
  | some i =>
    by_cases hgiv : s.givens.getD i false = true
    · simp only [hsel, hgiv, if_true]
    · simp only [hsel, hgiv, if_false, Bool.false_eq_true]

/-- The fold of capped pushes keeps the most recent 200 snapshots: it is
the drop of all but the last 200 of the concatenated stream. -/
theorem foldl_capPush_drop : ∀ (xs : List Snapshot) (u : List Snapshot), u.length ≤ 200 →
    List.foldl capPush u xs = (u ++ xs).drop (u.length + xs.length - 200)
  | [], u, h => by
    rw [List.foldl_nil, List.append_nil]
    rw [Nat.sub_eq_zero_of_le (by simp only [List.length_nil]; omega), List.drop_zero]
  | x :: xs, u, h => by
    rw [List.foldl_cons]
    by_cases hc : u.length < 200
    · have hcap : capPush u x = u ++ [x] := by
        unfold capPush
        rw [if_neg (by simp only [List.length_append, List.length_singleton, List.length_nil, List.length_cons]; omega)]
      rw [hcap]
      rw [foldl_capPush_drop xs (u ++ [x])
        (by simp only [List.length_append, List.length_singleton, List.length_nil, List.length_cons]; omega)]
      have hlist : (u ++ [x]) ++ xs = u ++ (x :: xs) := by simp
      have hcount : (u ++ [x]).length + xs.length - 200 =
          u.length + (x :: xs).length - 200 := by
        simp only [List.length_append, List.length_singleton, List.length_nil,
          List.length_cons]
        omega
      rw [hlist, hcount]
    · have hu : u.length = 200 := by omega
      cases u with
      | nil => simp at hu
      | cons c t =>
        have htlen : t.length = 199 := by
          simp only [List.length_cons] at hu
          omega
        have hcap : capPush (c :: t) x = t ++ [x] := by
          unfold capPush
          rw [if_pos (by simp only [List.length_append, List.length_cons,
            List.length_singleton, List.length_nil]; omega)]
          rfl
        rw [hcap]
        rw [foldl_capPush_drop xs (t ++ [x])
          (by simp only [List.length_append, List.length_singleton, List.length_nil, List.length_cons]; omega)]
        have hL : (c :: t) ++ x :: xs = c :: (t ++ x :: xs) := by simp
        have hcount2 : (c :: t).length + (x :: xs).length - 200 =
            ((t ++ [x]).length + xs.length - 200) + 1 := by
          simp only [List.length_append, List.length_cons, List.length_singleton,
            List.length_nil]
          omega
        rw [hL, hcount2, List.drop_succ_cons]
        have hlist2 : (t ++ [x]) ++ xs = t ++ x :: xs := by simp
        rw [hlist2]

theorem undoRedo_combined_shift (s : GameSession) :
    (undoAction s).undo.length + (undoAction s).redo.length ≤
        s.undo.length + s.redo.length ∧
      (redoAction s).undo.length + (redoAction s).redo.length ≤
        s.undo.length + s.redo.length := by
  constructor
  · rcases List.eq_nil_or_concat s.undo with h | ⟨u, a, h⟩
    · rw [undoAction_nil s h]
    · rw [List.concat_eq_append] at h
      rw [undoAction_concat s u a h, h]
      simp only [List.length_append, List.length_singleton, List.length_cons,
        List.length_nil]
      omega
  · rcases List.eq_nil_or_concat s.redo with h | ⟨r, a, h⟩
    · rw [redoAction_nil s h]
    · rw [List.concat_eq_append] at h
      rw [redoAction_concat s r a h, h]
      simp only [List.length_append, List.length_singleton, List.length_cons,
        List.length_nil]
      omega

/-- C5 (amended): recording through applyNumber or clearCell and undo
preserve the 200 bound on the undo stack; all four history operations
preserve the combined invariant undo.length + redo.length <= 200, which
holds for a fresh session and implies the 200 bound on the undo stack in
every reachable state; and recording 250 snapshots onto an empty undo
stack retains exactly the most recent 200, the oldest 50 evicted in FIFO
order from the front. -/
theorem history_bound_spec :
    (∀ (v : Nat) (s : GameSession), s.undo.length ≤ 200 →
      (applyNumber v s).undo.length ≤ 200) ∧
    (∀ s : GameSession, s.undo.length ≤ 200 → (clearCell s).undo.length ≤ 200) ∧
    (∀ s : GameSession, s.undo.length ≤ 200 → (undoAction s).undo.length ≤ 200) ∧
    (∀ (v : Nat) (s : GameSession), s.undo.length + s.redo.length ≤ 200 →
      (applyNumber v s).undo.length + (applyNumber v s).redo.length ≤ 200) ∧
    (∀ s : GameSession, s.undo.length + s.redo.length ≤ 200 →
      (clearCell s).undo.length + (clearCell s).redo.length ≤ 200) ∧
    (∀ s : GameSession, s.undo.length + s.redo.length ≤ 200 →
      (undoAction s).undo.length + (undoAction s).redo.length ≤ 200) ∧
    (∀ s : GameSession, s.undo.length + s.redo.length ≤ 200 →
      (redoAction s).undo.length + (redoAction s).redo.length ≤ 200) ∧
    (∀ s : GameSession, s.undo.length + s.redo.length ≤ 200 → s.undo.length ≤ 200) ∧
    (∀ entries0 : List (Option Nat),
      (createSession entries0).undo.length + (createSession entries0).redo.length ≤ 200) ∧
    (∀ xs : List Snapshot, xs.length = 250 →
      xs.foldl capPush [] = xs.drop 50 ∧ (xs.drop 50).length = 200) := by
  have happly : ∀ (v : Nat) (s : GameSession), s.undo.length ≤ 200 →
      (applyNumber v s).undo.length ≤ 200 := by
    intro v s h
    rw [applyNumber_undo]
    exact capPush_length _ _ h
  have hclear : ∀ s : GameSession, s.undo.length ≤ 200 →
      (clearCell s).undo.length ≤ 200 := by
    intro s h
    rw [clearCell_undo]
    exact capPush_length _ _ h
  refine ⟨happly, hclear, ?_, ?_, ?_, ?_, ?_, ?_, ?_, ?_⟩
  · intro s h
    rcases List.eq_nil_or_concat s.undo with hn | ⟨u, a, hn⟩
    · rw [undoAction_nil s hn]
      exact h
    · rw [List.concat_eq_append] at hn
      rw [undoAction_concat s u a hn]
      rw [hn] at h
      simp only [List.length_append, List.length_cons, List.length_nil] at h ⊢
      omega
  · intro v s h
    have h2 := happly v s (by omega)
    have hr : (applyNumber v s).redo = [] := applyWithHistory_redo _ s
    rw [hr]
    simpa using h2
  · intro s h
    have h2 := hclear s (by omega)
    have hr : (clearCell s).redo = [] := applyWithHistory_redo _ s
    rw [hr]
    simpa using h2
  · intro s h
    exact le_trans (undoRedo_combined_shift s).1 h
  · intro s h
    exact le_trans (undoRedo_combined_shift s).2 h
  · intro s h
    omega
  · intro entries0
    show ([] : List Snapshot).length + ([] : List Snapshot).length ≤ 200
    simp
  · intro xs h
    constructor
    · have hf := foldl_capPush_drop xs [] (by simp)
      rw [List.nil_append] at hf
      rw [hf]
      rw [show ([] : List Snapshot).length + xs.length - 200 = 50 by
        simp only [List.length_nil]; omega]
    · rw [List.length_drop, h]

/-- A session with a full undo stack and a non-empty redo stack: redo
pushes onto undo without any cap check, exceeding 200. -/
def overfullSession : GameSession :=
  { givens := [], entries := [], notes := [], selected := none, notesMode := false,
    undo := List.replicate 200 { entries := [], notes := [] },
    redo := [{ entries := [], notes := [] }] }

/-- Counterexample to C5 as stated: redo does not preserve the invariant
that the undo stack has at most 200 entries.  On a state with 200 undo
snapshots and one redo snapshot, redo pushes the current state onto undo
without the 200 cap (the cap is applied only in applyWithHistory), leaving
201 undo entries. -/
theorem history_bound_counterexample :
    overfullSession.undo.length ≤ 200 ∧
      ¬ ((redoAction overfullSession).undo.length ≤ 200) := by
  constructor
  · show (List.replicate 200 ({ entries := [], notes := [] } : Snapshot)).length ≤ 200
    rw [List.length_replicate]
  · show ¬ ((List.replicate 200 ({ entries := [], notes := [] } : Snapshot) ++
        [snapshotOf overfullSession]).length ≤ 200)
    rw [List.length_append, List.length_replicate]
    simp only [List.length_cons, List.length_nil]
    omega

/-- Witness for C5: a record preserves the bound on a fresh session, and
250 pushed snapshots fold to the most recent 200. -/
theorem history_bound_spec_witness :
    ((createSession []).undo.length ≤ 200 ∧
      (applyNumber 5 (createSession [])).undo.length ≤ 200) ∧
    ((List.replicate 250 ({ entries := [], notes := [] } : Snapshot)).length = 250 ∧
      (List.replicate 250 ({ entries := [], notes := [] } : Snapshot)).foldl capPush [] =
        (List.replicate 250 ({ entries := [], notes := [] } : Snapshot)).drop 50) :=
  ⟨⟨by rw [show (createSession []).undo = [] from rfl]; simp,
      history_bound_spec.1 5 (createSession [])
        (by rw [show (createSession []).undo = [] from rfl]; simp)⟩,
    ⟨by rw [List.length_replicate],
      (history_bound_spec.2.2.2.2.2.2.2.2.2 _ (by rw [List.length_replicate])).1⟩⟩

theorem getD_set_ne {α : Type} (l : List α) (j : Nat) (a : α) (i : Nat) (d : α)
    (h : j ≠ i) : (l.set j a).getD i d = l.getD i d := by
  rw [List.getD_eq_getElem?_getD, List.getD_eq_getElem?_getD, List.getElem?_set_ne h]

theorem getD_map_isSome (e0 : List (Option Nat)) (i : Nat) :
    (e0.map (fun v => v.isSome)).getD i false = (e0.getD i none).isSome := by
  rw [List.getD_eq_getElem?_getD, List.getD_eq_getElem?_getD, List.getElem?_map]
  cases h : e0[i]? <;> simp

/-- The invariant of C8 on a snapshot: every cell that is a given (held a
digit in the initial entries) still holds that digit and has no notes. -/
def givensIntact (entries0 : List (Option Nat)) (es : List (Option Nat))
    (ns : List (List Nat)) : Prop :=
  ∀ i, (entries0.getD i none).isSome = true →
    es.getD i none = entries0.getD i none ∧ ns.getD i [] = []

/-- The inductive session invariant: the givens mask is the isSome mask of
the initial entries, and the current state and every snapshot on either
stack keep all givens intact. -/
def sessionInv (entries0 : List (Option Nat)) (s : GameSession) : Prop :=
  s.givens = entries0.map (fun v => v.isSome) ∧
  givensIntact entries0 s.entries s.notes ∧
  (∀ sn ∈ s.undo, givensIntact entries0 sn.entries sn.notes) ∧
  (∀ sn ∈ s.redo, givensIntact entries0 sn.entries sn.notes)

theorem createSession_inv (entries0 : List (Option Nat)) :
    sessionInv entries0 (createSession entries0) := by
  refine ⟨rfl, ?_, ?_, ?_⟩
  · intro i hi
    refine ⟨rfl, ?_⟩
    show (List.replicate 81 ([] : List Nat)).getD i [] = []
    rw [List.getD_eq_getElem?_getD, List.getElem?_replicate]
    by_cases h : i < 81 <;> simp [h]
  · intro sn hsn
    exact absurd hsn (List.not_mem_nil sn)
  · intro sn hsn
    exact absurd hsn (List.not_mem_nil sn)

theorem mem_capPush {u : List Snapshot} {a x : Snapshot} (h : x ∈ capPush u a) :
    x ∈ u ∨ x = a := by
  unfold capPush at h
  by_cases hc : 200 < (u ++ [a]).length
  · rw [if_pos hc] at h
    have h2 : x ∈ u ++ [a] := List.mem_of_mem_tail h
    simpa using h2
  · rw [if_neg hc] at h
    simpa using h

theorem givensIntact_set_nongiven {e0 es ns} (h : givensIntact e0 es ns) (i : Nat)
    (hng : (e0.getD i none).isSome = false)
    (es2 : List (Option Nat)) (ns2 : List (List Nat))
    (hes : es2 = es ∨ ∃ v, es2 = es.set i v)
    (hns : ns2 = ns ∨ ∃ nv, ns2 = ns.set i nv) :
    givensIntact e0 es2 ns2 := by
  intro k hk
  have hki : i ≠ k := by
    intro heq
    rw [heq, hk] at hng
    exact Bool.noConfusion hng
  constructor
  · rcases hes with rfl | ⟨v, rfl⟩
    · exact (h k hk).1
    · rw [getD_set_ne es i v k none hki]
      exact (h k hk).1
  · rcases hns with rfl | ⟨nv, rfl⟩
    · exact (h k hk).2
    · rw [getD_set_ne ns i nv k [] hki]
      exact (h k hk).2

theorem applyNumber_cases (v : Nat) (s : GameSession) :
    applyNumber v s = { s with undo := capPush s.undo (snapshotOf s), redo := [] } ∨
    ∃ i, s.selected = some i ∧ s.givens.getD i false = false ∧
      (applyNumber v s = { s with
          notes := s.notes.set i (toggleNote (s.notes.getD i []) v),
          undo := capPush s.undo (snapshotOf s), redo := [] } ∨
       applyNumber v s = { s with
          entries := s.entries.set i (some v),
          notes := s.notes.set i [],
          undo := capPush s.undo (snapshotOf s), redo := [] }) := by
  by_cases hnone : s.selected = none
  · left
    exact (noop_record_aux s v (Or.inl hnone)).1
  · obtain ⟨i, hsel⟩ : ∃ i, s.selected = some i := by
      cases h : s.selected with
      | none => exact absurd h hnone
      | some i => exact ⟨i, rfl⟩
    by_cases hgiv : s.givens.getD i false = true
    · left
      exact (noop_record_aux s v (Or.inr ⟨i, hsel, hgiv⟩)).1
    · right
      refine ⟨i, hsel, by simpa using hgiv, ?_⟩
      by_cases hm : s.notesMode = true
      · left
        unfold applyNumber applyWithHistory
        simp only [hsel, hgiv, hm, if_false, Bool.false_eq_true, if_true]
      · right
        unfold applyNumber applyWithHistory
        simp only [hsel, hgiv, hm, if_false, Bool.false_eq_true, if_true]

theorem clearCell_cases (s : GameSession) :
    clearCell s = { s with undo := capPush s.undo (snapshotOf s), redo := [] } ∨
    ∃ i, s.selected = some i ∧ s.givens.getD i false = false ∧
      clearCell s = { s with
          entries := s.entries.set i none,
          notes := s.notes.set i [],
          undo := capPush s.undo (snapshotOf s), redo := [] } := by
  by_cases hnone : s.selected = none
  · left
    exact (noop_record_aux s 0 (Or.inl hnone)).2
  · obtain ⟨i, hsel⟩ : ∃ i, s.selected = some i := by
      cases h : s.selected with
      | none => exact absurd h hnone
      | some i => exact ⟨i, rfl⟩
    by_cases hgiv : s.givens.getD i false = true
    · left
      exact (noop_record_aux s 0 (Or.inr ⟨i, hsel, hgiv⟩)).2
    · right
      refine ⟨i, hsel, by simpa using hgiv, ?_⟩
      unfold clearCell applyWithHistory
      simp only [hsel, hgiv, if_false, Bool.false_eq_true]

theorem capPush_intact {e0 : List (Option Nat)} {u : List Snapshot} {a : Snapshot}
    (hu : ∀ sn ∈ u, givensIntact e0 sn.entries sn.notes)
    (ha : givensIntact e0 a.entries a.notes) :
    ∀ sn ∈ capPush u a, givensIntact e0 sn.entries sn.notes := by
  intro sn hsn
  rcases mem_capPush hsn with h | rfl
  · exact hu sn h
  · exact ha

theorem step_preserves_inv {entries0 : List (Option Nat)} {s t : GameSession}
    (hstep : SessionStep s t) (hinv : sessionInv entries0 s) :
    sessionInv entries0 t := by
  obtain ⟨hg, hcur, hundo, hredo⟩ := hinv
  have hsnap : givensIntact entries0 (snapshotOf s).entries (snapshotOf s).notes := hcur
  cases hstep with
  | applyNum v s =>
    rcases applyNumber_cases v s with hc | ⟨i, hsel, hgiv, hc | hc⟩
    · rw [hc]
      exact ⟨hg, hcur, capPush_intact hundo hsnap, fun sn hsn =>
        absurd hsn (List.not_mem_nil sn)⟩
    · have hng : (entries0.getD i none).isSome = false := by
        rw [← getD_map_isSome, ← hg]
        exact hgiv
      rw [hc]
      refine ⟨hg, ?_, capPush_intact hundo hsnap, fun sn hsn =>
        absurd hsn (List.not_mem_nil sn)⟩
      exact givensIntact_set_nongiven hcur i hng _ _ (Or.inl rfl)
        (Or.inr ⟨toggleNote (s.notes.getD i []) v, rfl⟩)
    · have hng : (entries0.getD i none).isSome = false := by
        rw [← getD_map_isSome, ← hg]
        exact hgiv
      rw [hc]
      refine ⟨hg, ?_, capPush_intact hundo hsnap, fun sn hsn =>
        absurd hsn (List.not_mem_nil sn)⟩
      exact givensIntact_set_nongiven hcur i hng _ _ (Or.inr ⟨some v, rfl⟩)
        (Or.inr ⟨[], rfl⟩)
  | clear s =>
    rcases clearCell_cases s with hc | ⟨i, hsel, hgiv, hc⟩
    · rw [hc]
      exact ⟨hg, hcur, capPush_intact hundo hsnap, fun sn hsn =>
        absurd hsn (List.not_mem_nil sn)⟩
    · have hng : (entries0.getD i none).isSome = false := by
        rw [← getD_map_isSome, ← hg]
        exact hgiv
      rw [hc]
      refine ⟨hg, ?_, capPush_intact hundo hsnap, fun sn hsn =>
        absurd hsn (List.not_mem_nil sn)⟩
      exact givensIntact_set_nongiven hcur i hng _ _ (Or.inr ⟨none, rfl⟩)
        (Or.inr ⟨[], rfl⟩)
  | undo s =>
    rcases List.eq_nil_or_concat s.undo with hn | ⟨u, a, hn⟩
    · rw [undoAction_nil s hn]
      exact ⟨hg, hcur, hundo, hredo⟩
    · rw [List.concat_eq_append] at hn
      rw [undoAction_concat s u a hn]
      refine ⟨hg, ?_, ?_, ?_⟩
      · exact hundo a (by rw [hn]; simp)
      · intro sn hsn
        exact hundo sn (by rw [hn]; exact List.mem_append_left _ hsn)
      · intro sn hsn
        rcases List.mem_append.1 hsn with h | h
        · exact hredo sn h
        · rw [List.mem_singleton] at h
          subst h
          exact hsnap
  | redo s =>
    rcases List.eq_nil_or_concat s.redo with hn | ⟨r, a, hn⟩
    · rw [redoAction_nil s hn]
      exact ⟨hg, hcur, hundo, hredo⟩
    · rw [List.concat_eq_append] at hn
      rw [redoAction_concat s r a hn]
      refine ⟨hg, ?_, ?_, ?_⟩
      · exact hredo a (by rw [hn]; simp)
      · intro sn hsn
        rcases List.mem_append.1 hsn with h | h
        · exact hundo sn h
        · rw [List.mem_singleton] at h
          subst h
          exact hsnap
      · intro sn hsn
        exact hredo sn (by rw [hn]; exact List.mem_append_left _ hsn)
  | select i s =>
    exact ⟨hg, hcur, hundo, hredo⟩
  | toggleMode s =>
    exact ⟨hg, hcur, hundo, hredo⟩

theorem reaches_inv {entries0 : List (Option Nat)} {s : GameSession}
    (hr : Reaches (createSession entries0) s) : sessionInv entries0 s := by
  induction hr with
  | refl => exact createSession_inv entries0
  | step hr hstep ih => exact step_preserves_inv hstep ih

/-- C8: in every session state reachable from a freshly created session by
the session operations (entering a number, toggling a note, clearing a
cell, undo, redo, selection and mode changes), a cell that was a given at
initialization still holds its initial digit and carries no notes. -/
theorem givens_immutable (entries0 : List (Option Nat)) (s : GameSession)
    (hr : Reaches (createSession entries0) s) (i : Nat)
    (hg : s.givens.getD i false = true) :
    s.entries.getD i none = entries0.getD i none ∧ s.notes.getD i [] = [] := by
  obtain ⟨hgiv, hcur, _, _⟩ := reaches_inv hr
  apply hcur
  rw [← getD_map_isSome, ← hgiv]
  exact hg

/-- Witness for C8 on a one-cell session whose only cell is a given. -/
theorem givens_immutable_witness :
    (createSession [some 5]).givens.getD 0 false = true ∧
      (createSession [some 5]).entries.getD 0 none = some 5 ∧
      (createSession [some 5]).notes.getD 0 [] = [] := by
  refine ⟨rfl, ?_⟩
  have h := givens_immutable [some 5] (createSession [some 5])
    (Reaches.refl _) 0 rfl
  exact h

/-- Difficulty (types module). -/
inductive Difficulty where
  | easy
  | medium
  | hard

/-- The id prefix used by the template literal in the generator. -/
def difficultyName : Difficulty → String
  | .easy => "easy"
  | .medium => "medium"
  | .hard => "hard"

/-- blanksByDifficulty (generation script, lines 77-81). -/
def blanksByDifficulty : Difficulty → Nat
  | .easy => 36
  | .medium => 46
  | .hard => 54

/-- One record of the fallback pack (GeneratedPuzzle interface). -/
structure GeneratedPuzzle where
  id : String
  difficulty : Difficulty
  puzzle : List Char
  solution : List Char

/-- generateFallback (generation script, lines 76-93). -/
def generateFallback (difficulty : Difficulty) (count : Nat) : List GeneratedPuzzle :=
  (List.range count).map (fun index =>
    let solution := knownSolutions.getD (index % knownSolutions.length) []
    { id := difficultyName difficulty ++ "-" ++ toString (index + 1)
    , difficulty := difficulty
    , puzzle := carve solution (blanksByDifficulty difficulty) (index + 11)
    , solution := solution })

def digitCharVal (c : Char) : Nat := c.toNat - 48

/-- The numeric value of a decimal digit string, used as a left inverse of
the decimal printer to show it is injective. -/
def digitsVal (l : List Char) : Nat := l.foldl (fun a c => a * 10 + digitCharVal c) 0

theorem toDigitsCore_append (b : Nat) : ∀ (f n : Nat) (ds : List Char),
    Nat.toDigitsCore b f n ds = Nat.toDigitsCore b f n [] ++ ds
  | 0, n, ds => rfl
  | f + 1, n, ds => by
    show Nat.toDigitsCore b (f + 1) n ds = Nat.toDigitsCore b (f + 1) n [] ++ ds
    rw [Nat.toDigitsCore, Nat.toDigitsCore]
    by_cases h : n / b = 0
    · rw [if_pos h, if_pos h]
      rfl
    · rw [if_neg h, if_neg h]
      rw [toDigitsCore_append b f (n / b) [Nat.digitChar (n % b)],
        toDigitsCore_append b f (n / b) (Nat.digitChar (n % b) :: ds)]
      rw [List.append_assoc]
      rfl

theorem digitCharVal_digitChar {r : Nat} (h : r < 10) :
    digitCharVal (Nat.digitChar r) = r := by
  interval_cases r <;> rfl

theorem digitsVal_toDigitsCore : ∀ (f n : Nat), n < f →
    digitsVal (Nat.toDigitsCore 10 f n []) = n
  | 0, n, h => absurd h (Nat.not_lt_zero n)
  | f + 1, n, h => by
    rw [Nat.toDigitsCore]
    by_cases h0 : n / 10 = 0
    · rw [if_pos h0]
      unfold digitsVal
      rw [List.foldl_cons, List.foldl_nil]
      rw [digitCharVal_digitChar (Nat.mod_lt n (by norm_num))]
      omega
    · rw [if_neg h0]
      rw [toDigitsCore_append 10 f (n / 10) [Nat.digitChar (n % 10)]]
      unfold digitsVal
      rw [List.foldl_append]
      have hlt : n / 10 < f := by
        have h1 : n / 10 < n := Nat.div_lt_self (by omega) (by norm_num)
        omega
      have hIH := digitsVal_toDigitsCore f (n / 10) hlt
      unfold digitsVal at hIH
      rw [hIH]
      show n / 10 * 10 + digitCharVal (Nat.digitChar (n % 10)) = n
      rw [digitCharVal_digitChar (Nat.mod_lt n (by norm_num))]
      omega

theorem digitsVal_toDigits (n : Nat) : digitsVal (Nat.toDigits 10 n) = n :=
  digitsVal_toDigitsCore (n + 1) n (Nat.lt_succ_self n)

/-- The decimal printer for Nat is injective. -/
theorem natRepr_injective {m n : Nat} (h : Nat.repr m = Nat.repr n) : m = n := by
  have hdig : Nat.toDigits 10 m = Nat.toDigits 10 n := congrArg String.data h
  have hm := digitsVal_toDigits m
  rw [hdig, digitsVal_toDigits n] at hm
  exact hm.symm

/-- The fallback ids are injective in the puzzle index. -/
theorem fallbackId_injective (d : Difficulty) {j k : Nat}
    (h : difficultyName d ++ "-" ++ toString (j + 1) =
      difficultyName d ++ "-" ++ toString (k + 1)) : j = k := by
  have hdata := congrArg String.data h
  rw [String.data_append, String.data_append, String.data_append,
    String.data_append] at hdata
  have h3 := List.append_cancel_left hdata
  have h4 : Nat.repr (j + 1) = Nat.repr (k + 1) := by
    apply congrArg (fun l => String.mk l) at h3
    exact h3
  have := natRepr_injective h4
  omega

set_option maxRecDepth 400000 in
set_option maxHeartbeats 2000000 in
/-- C7: generateFallback d n yields exactly n records; the record at index
k has id "{d}-{k+1}" (so the ids are pairwise distinct), solution
knownSolutions[k mod 3] from the fixed 3-item pool, and puzzle
carve(solution, blanksFor(d), k + 11) with blanksFor easy = 36,
medium = 46, hard = 54; and each of the 40 hard fallback puzzles parses to
a grid with exactly 54 empty (blanked) cells. -/
theorem generateFallback_spec :
    (∀ (d : Difficulty) (n : Nat), (generateFallback d n).length = n) ∧
    (∀ (d : Difficulty) (n k : Nat), k < n →
      (generateFallback d n)[k]? = some
        { id := difficultyName d ++ "-" ++ toString (k + 1)
        , difficulty := d
        , puzzle := carve (knownSolutions.getD (k % 3) [])
            (blanksByDifficulty d) (k + 11)
        , solution := knownSolutions.getD (k % 3) [] }) ∧
    (blanksByDifficulty .easy = 36 ∧ blanksByDifficulty .medium = 46 ∧
      blanksByDifficulty .hard = 54) ∧
    (∀ (d : Difficulty) (n j k : Nat), j < n → k < n →
      (generateFallback d n)[j]?.map GeneratedPuzzle.id =
        (generateFallback d n)[k]?.map GeneratedPuzzle.id → j = k) ∧
    (∀ k < 40, ∃ r, parseGrid (carve (knownSolutions.getD (k % 3) []) 54 (k + 11)) =
      Except.ok r ∧
      ((Finset.range 81).filter (fun p => r.getD p none = none)).card = 54) := by
  have hlen : ∀ (d : Difficulty) (n : Nat), (generateFallback d n).length = n := by
    intro d n
    unfold generateFallback
    rw [List.length_map, List.length_range]
  have hget : ∀ (d : Difficulty) (n k : Nat), k < n →
      (generateFallback d n)[k]? = some
        { id := difficultyName d ++ "-" ++ toString (k + 1)
        , difficulty := d
        , puzzle := carve (knownSolutions.getD (k % 3) [])
            (blanksByDifficulty d) (k + 11)
        , solution := knownSolutions.getD (k % 3) [] } := by
    intro d n k hk
    unfold generateFallback
    rw [List.getElem?_map, List.getElem?_range hk]
    rfl
  refine ⟨hlen, hget, ⟨rfl, rfl, rfl⟩, ?_, ?_⟩
  · intro d n j k hj hk hid
    rw [hget d n j hj, hget d n k hk] at hid
    simp only [Option.map_some'] at hid
    exact fallbackId_injective d (Option.some_injective _ hid)
  · have hsol : ∀ s ∈ knownSolutions, s.length = 81 ∧ ∀ c ∈ s, '1' ≤ c ∧ c ≤ '9' := by
      decide
    have hmaster : ∀ k2 < 40, ∀ t < 80,
        lcg^[t + 1] ((k2 + 11) % 4294967296) ≠ 4294967295 := by decide
    intro k hk
    have hmem : knownSolutions.getD (k % 3) [] ∈ knownSolutions := by
      have hk3 : k % 3 < 3 := Nat.mod_lt _ (by norm_num)
      have hgd : knownSolutions.getD (k % 3) [] = knownSolutions[k % 3] := by
        rw [List.getD_eq_getElem?_getD,
          List.getElem?_eq_getElem (by rw [show knownSolutions.length = 3 from rfl]; omega)]
        rfl
      rw [hgd]
      exact List.getElem_mem _
    obtain ⟨hlen81, hdig⟩ := hsol _ hmem
    obtain ⟨r, hok, hcard, _⟩ := carve_roundtrip_aux _ 54 (k + 11) hlen81 hdig (by norm_num)
      (hmaster k hk)
    exact ⟨r, hok, hcard⟩

set_option maxRecDepth 400000 in
/-- Witness for C7 at the first hard record. -/
theorem generateFallback_spec_witness :
    (generateFallback Difficulty.hard 40).length = 40 ∧
    (generateFallback Difficulty.hard 40)[0]? = some
      { id := difficultyName Difficulty.hard ++ "-" ++ toString (0 + 1)
      , difficulty := Difficulty.hard
      , puzzle := carve (knownSolutions.getD (0 % 3) [])
          (blanksByDifficulty Difficulty.hard) (0 + 11)
      , solution := knownSolutions.getD (0 % 3) [] } :=
  ⟨generateFallback_spec.1 Difficulty.hard 40,
    generateFallback_spec.2.1 Difficulty.hard 40 0 (by decide)⟩
